import Mathlib

/-!
GNNAdvisor row partitioner (`build_part`)

Shallow embedding of `build_part` from `src/GNNAdvisor/GNNConv/GNNAdvisor.cpp`
(lines 67-109) together with the properties of the part table and the
part-to-row map it returns.

Modelling conventions.
* A one dimensional tensor is a `List Int`.  The input tensor holds 32-bit
  integers.  The two returned tensors are created by `torch::zeros` without an
  element type, so they hold float32 values: a store converts the `int` to the
  nearest float32 (ties to even), and an entry of the model is the integer
  value of that float32.  Integers of magnitude up to 2^24 are stored exactly.
* `/` and `%` on C `int` truncate towards zero: `Int.tdiv` and `Int.tmod`.
  A division by zero (partSize = 0 with at least one row) aborts the call.
* The sum `partBeg + partSize` of source line 101 is 32-bit two's complement
  arithmetic (`wrap32`): it leaves the `int` range on valid inputs with a large
  `partSize`.  The other `int` operations are exact: on non-decreasing
  non-negative 32-bit offsets their results stay in the `int` range, apart from
  `numParts + 1` of line 87 when there are exactly 2^31 - 1 parts.
* `torch::zeros n` is a zero filled list of length `n`; it raises when `n` is
  negative.  A tensor element write `t[idx] = v` raises when `idx` is not below
  the length of `t`.  A raised error is the result `none`.
-/

namespace GNNAdvisor

/-- Read access `indptr_acc[i]`.  Every read of `build_part` stays inside the
tensor (`i + 1 ≤ num_nodes`), the default value is never observed. -/
def indptr_acc (indptr : List Int) (i : Nat) : Int :=
  indptr.getD i 0

/-- Per-row part count, source lines 80-83 and 94-97. -/
def thisNumParts (degree partSize : Int) : Int :=
  if degree.tmod partSize = 0 then degree.tdiv partSize
  else degree.tdiv partSize + 1

/-- First pass, source lines 77-85: the running total `numParts`. -/
def countParts (partSize : Int) (indptr : List Int) (num_nodes : Nat) : Int :=
  (List.range num_nodes).foldl
    (fun numParts i =>
      let degree := indptr_acc indptr (i + 1) - indptr_acc indptr i
      numParts + thisNumParts degree partSize)
    0

/-- Result of a 32-bit `int` addition: the mathematical sum reduced to the
two's complement range `[-2^31, 2^31)`. -/
def wrap32 (x : Int) : Int :=
  (x + 2147483648) % 4294967296 - 2147483648

/-- Spacing of the float32 values around the magnitude `n`: 1 below 2^24, and
doubled each time the magnitude doubles (24 significant bits).  The first
argument bounds the number of doublings; 105 of them cover the finite float32
range. -/
def f32Ulp : Nat → Nat → Nat → Nat
  | 0, u, _ => u
  | fuel + 1, u, n => if n < 16777216 * u then u else f32Ulp fuel (2 * u) n

/-- Nearest multiple of `u` to `n`, a tie going to the even multiple. -/
def roundTiesEven (u n : Nat) : Nat :=
  if 2 * (n % u) < u then n / u * u
  else if u < 2 * (n % u) then (n / u + 1) * u
  else if n / u % 2 = 0 then n / u * u
  else (n / u + 1) * u

/-- Conversion of an `int` to float32, as done by a store into a tensor made
by `torch::zeros`: the nearest float32, given by its integer value. -/
def toFloat32 (v : Int) : Int :=
  if v < 0 then -((roundTiesEven (f32Ulp 105 1 v.natAbs) v.natAbs : Nat) : Int)
  else ((roundTiesEven (f32Ulp 105 1 v.natAbs) v.natAbs : Nat) : Int)

/-- Constructor `torch::zeros(n)`: fails on a negative length. -/
def zeros (n : Int) : Option (List Int) :=
  if n < 0 then none else some (List.replicate n.toNat 0)

/-- Element write `t[idx] = v` of an `int` into a float32 tensor: fails when
`idx` is out of range, stores the float32 nearest to `v` otherwise. -/
def setAt (t : List Int) (idx : Nat) (v : Int) : Option (List Int) :=
  if idx < t.length then some (t.set idx (toFloat32 v)) else none

/-- The mutable state of the second pass. -/
structure FillState where
  partPtr : List Int
  part2Node : List Int
  part_counter : Nat
deriving DecidableEq

/-- Body of the inner loop, source lines 100-105. -/
def fillPart (partSize : Int) (indptr : List Int) (num_nodes : Int) (i : Nat)
    (st : FillState) (pid : Nat) : Option FillState := do
  let partBeg := indptr_acc indptr i + (pid : Int) * partSize
  let partEnd :=
    if wrap32 (partBeg + partSize) < indptr_acc indptr (i + 1)
    then wrap32 (partBeg + partSize)
    else indptr_acc indptr (i + 1)
  let partPtr ← setAt st.partPtr st.part_counter partBeg
  let part2Node ← setAt st.part2Node st.part_counter (i : Int)
  let part_counter := st.part_counter + 1
  if (i : Int) = num_nodes - 1 ∧ partEnd = indptr_acc indptr (i + 1) then
    let partPtr ← setAt partPtr part_counter partEnd
    pure ⟨partPtr, part2Node, part_counter⟩
  else
    pure ⟨partPtr, part2Node, part_counter⟩

/-- Body of the outer loop of the second pass, source lines 93-106: the inner
loop runs for `pid = 0, 1, ...` while `pid < thisNumParts`. -/
def fillRow (partSize : Int) (indptr : List Int) (num_nodes : Int)
    (st : FillState) (i : Nat) : Option FillState :=
  let degree := indptr_acc indptr (i + 1) - indptr_acc indptr i
  (List.range (thisNumParts degree partSize).toNat).foldlM
    (fillPart partSize indptr num_nodes i) st

/-- The function `build_part`, source lines 67-109.  The result is the pair
`(partPtr, part2Node)`, or `none` when the call raises. -/
def build_part (partSize : Int) (indptr : List Int) :
    Option (List Int × List Int) :=
  let num_nodes : Int := (indptr.length : Int) - 1
  if partSize = 0 ∧ 0 < num_nodes then none
  else do
    let numParts := countParts partSize indptr num_nodes.toNat
    let partPtr ← zeros (numParts + 1)
    let part2Node ← zeros numParts
    let st ← (List.range num_nodes.toNat).foldlM
      (fillRow partSize indptr num_nodes) ⟨partPtr, part2Node, 0⟩
    pure (st.partPtr, st.part2Node)

/-! ## Auxiliary definitions used to state and prove the properties -/

/-- Number of parts of row `i`, as a loop bound (`pid < thisNumParts`). -/
def rowNumParts (partSize : Int) (indptr : List Int) (i : Nat) : Nat :=
  (thisNumParts (indptr_acc indptr (i + 1) - indptr_acc indptr i) partSize).toNat

/-- Start offset computed for local part `pid` of row `i` (source line 100). -/
def partBegOf (partSize : Int) (indptr : List Int) (i pid : Nat) : Int :=
  indptr_acc indptr i + (pid : Int) * partSize

/-- End offset computed for local part `pid` of row `i` (source line 101),
with the 32-bit sum. -/
def partEndOf (partSize : Int) (indptr : List Int) (i pid : Nat) : Int :=
  if wrap32 (partBegOf partSize indptr i pid + partSize) < indptr_acc indptr (i + 1)
  then wrap32 (partBegOf partSize indptr i pid + partSize)
  else indptr_acc indptr (i + 1)

/-- The end offset of local part `pid` of row `i` as an exact integer: the
value of source line 101 when the sum does not overflow. -/
def exactEndOf (partSize : Int) (indptr : List Int) (i pid : Nat) : Int :=
  if partBegOf partSize indptr i pid + partSize < indptr_acc indptr (i + 1)
  then partBegOf partSize indptr i pid + partSize
  else indptr_acc indptr (i + 1)

/-- Start offsets of the parts of row `i`, in loop order. -/
def rowStarts (partSize : Int) (indptr : List Int) (i : Nat) : List Int :=
  (List.range (rowNumParts partSize indptr i)).map (partBegOf partSize indptr i)

/-- Row index entries of the parts of row `i`, in loop order. -/
def rowOwners (partSize : Int) (indptr : List Int) (i : Nat) : List Int :=
  (List.range (rowNumParts partSize indptr i)).map (fun _ => (i : Int))

/-- Start offsets of all parts of rows `0 .. n-1`, in loop order. -/
def startsUpTo (partSize : Int) (indptr : List Int) (n : Nat) : List Int :=
  (List.range n).flatMap (rowStarts partSize indptr)

/-- Row index entries of all parts of rows `0 .. n-1`, in loop order. -/
def ownersUpTo (partSize : Int) (indptr : List Int) (n : Nat) : List Int :=
  (List.range n).flatMap (rowOwners partSize indptr)

/-- A prefix of written entries followed by the untouched zeros of a tensor of
length `total`. -/
def pad (done : List Int) (total : Nat) : List Int :=
  done ++ List.replicate (total - done.length) 0

/-- The part table during the second pass: the entries written for the parts
done so far, the slot of the next part holding `c`, then untouched zeros; the
length is `total + 1`. -/
def slotPad (done : List Int) (total : Nat) (c : Int) : List Int :=
  done ++ c :: List.replicate (total - done.length) 0

/-- Range `[start_k, end_k)` of part `k` read off the returned tables:
`start_k = partTable[k]`, `end_k = min (start_k + partSize)
(indptr[partToRow[k] + 1])`. -/
def partStart (partTable : List Int) (k : Nat) : Int :=
  partTable.getD k 0

/-- End of the range of part `k`, see `partStart`. -/
def partEnd (partSize : Int) (indptr partTable partToRow : List Int) (k : Nat) : Int :=
  min (partStart partTable k + partSize)
    (indptr_acc indptr ((partToRow.getD k 0).toNat + 1))

/-- The end offset `indptr[N]` when the last row has a part, zero otherwise:
the value of the last slot of the part table when nothing overflows. -/
def lastSlot (indptr : List Int) : Int :=
  if 0 < indptr.length - 1 ∧
      indptr_acc indptr (indptr.length - 2) < indptr_acc indptr (indptr.length - 1)
  then indptr_acc indptr (indptr.length - 1) else 0

/-- The parts of rows `0 .. n-1` as pairs `(i, pid)`, in loop order. -/
def partsUpTo (partSize : Int) (indptr : List Int) (n : Nat) : List (Nat × Nat) :=
  (List.range n).flatMap
    (fun i => (List.range (rowNumParts partSize indptr i)).map (fun pid => (i, pid)))

/-- The neighbor range of the part `(i, pid)` as exact integers. -/
def rangeOf (partSize : Int) (indptr : List Int) (q : Nat × Nat) : Int × Int :=
  (partBegOf partSize indptr q.1 q.2, exactEndOf partSize indptr q.1 q.2)

/-- A list of ranges `(start, end)` tiles `[a, b)`: the first range starts at
`a`, every range ends where the next one starts, the last one ends at `b`; the
empty list tiles only the empty interval. -/
def Tiles : Int → Int → List (Int × Int) → Prop
  | a, b, [] => a = b
  | a, b, r :: l => r.1 = a ∧ Tiles r.2 b l

/-- The sentinel condition of source line 104, evaluated in the iteration
`(i, pid)` of the second pass: `i == num_nodes - 1 && partEnd ==
indptr_acc[i + 1]`. -/
def sentinelCond (partSize : Int) (indptr : List Int) (num_nodes : Int)
    (i pid : Nat) : Prop :=
  (i : Int) = num_nodes - 1 ∧
    partEndOf partSize indptr i pid = indptr_acc indptr (i + 1)

/-- Content of the slot after the start written by the iteration `(i, pid)`:
the float32 of `partEnd` when the sentinel store of line 105 runs, the
initial zero otherwise. -/
def sentinelVal (partSize : Int) (indptr : List Int) (num_nodes : Int)
    (i pid : Nat) : Int :=
  if (i : Int) = num_nodes - 1 ∧
      partEndOf partSize indptr i pid = indptr_acc indptr (i + 1)
  then toFloat32 (partEndOf partSize indptr i pid) else 0

/-- Content of the last slot of the part table on return: the slot content
left by the last iteration of the second pass, zero when there is none. -/
def finalSlot (partSize : Int) (indptr : List Int) : Int :=
  (partsUpTo partSize indptr (indptr.length - 1)).foldl
    (fun _ q => sentinelVal partSize indptr ((indptr.length : Int) - 1) q.1 q.2) 0

/-- The inner loop body run for the iteration `(i, pid)`: the second pass is
the sequence of these steps over all iterations in loop order. -/
def fillStep (partSize : Int) (indptr : List Int) (num_nodes : Int)
    (st : FillState) (q : Nat × Nat) : Option FillState :=
  fillPart partSize indptr num_nodes q.1 st q.2

/-! ## Arithmetic of the per-row part count -/

theorem thisNumParts_bounds (d ps : Int) (hd : 0 ≤ d) (hps : 1 ≤ ps) :
    d ≤ thisNumParts d ps * ps ∧ thisNumParts d ps * ps < d + ps := by
  have hps0 : (0 : Int) ≤ ps := by omega
  have hdiv := Int.emod_add_ediv d ps
  have hm0 := Int.emod_nonneg d (show ps ≠ 0 by omega)
  have hm1 := Int.emod_lt_of_pos d (show 0 < ps by omega)
  unfold thisNumParts
  rw [Int.tmod_eq_emod hd hps0, Int.tdiv_eq_ediv hd hps0]
  split
  · rename_i h
    rw [h] at hdiv
    constructor <;> nlinarith
  · rename_i h
    have : 0 < d % ps := by omega
    constructor <;> nlinarith

theorem thisNumParts_nonneg (d ps : Int) (hd : 0 ≤ d) (hps : 1 ≤ ps) :
    0 ≤ thisNumParts d ps := by
  have h := thisNumParts_bounds d ps hd hps
  by_contra hc
  have : thisNumParts d ps ≤ -1 := by omega
  nlinarith

theorem thisNumParts_pos (d ps : Int) (hd : 0 < d) (hps : 1 ≤ ps) :
    0 < thisNumParts d ps := by
  have h := thisNumParts_bounds d ps hd.le hps
  by_contra hc
  have : thisNumParts d ps ≤ 0 := by omega
  nlinarith

theorem thisNumParts_zero (ps : Int) : thisNumParts 0 ps = 0 := by
  simp [thisNumParts]

/-- The part count is the ceiling of `degree / partSize`. -/
theorem thisNumParts_eq_ceil (d ps : Int) (hd : 0 ≤ d) (hps : 1 ≤ ps) :
    thisNumParts d ps = ⌈(d : ℚ) / (ps : ℚ)⌉ := by
  have h := thisNumParts_bounds d ps hd hps
  have hpsq : (0 : ℚ) < (ps : ℚ) := by exact_mod_cast (show (0 : Int) < ps by omega)
  symm
  rw [Int.ceil_eq_iff]
  constructor
  · rw [lt_div_iff₀ hpsq]
    have : ((thisNumParts d ps * ps : Int) : ℚ) < ((d + ps : Int) : ℚ) := by
      exact_mod_cast h.2
    push_cast at this
    linarith
  · rw [div_le_iff₀ hpsq]
    have : ((d : Int) : ℚ) ≤ ((thisNumParts d ps * ps : Int) : ℚ) := by
      exact_mod_cast h.1
    push_cast at this
    linarith

/-! ## Exact stores and exact sums -/

theorem f32Ulp_small (n : Nat) (h : n < 16777216) : f32Ulp 105 1 n = 1 := by
  show (if n < 16777216 * 1 then 1 else f32Ulp 104 (2 * 1) n) = 1
  rw [if_pos (by omega)]

theorem roundTiesEven_one (n : Nat) : roundTiesEven 1 n = n := by
  simp [roundTiesEven, Nat.mod_one]

/-- An integer of magnitude at most 2^24 is stored exactly. -/
theorem toFloat32_exact (v : Int) (h : -16777216 ≤ v ∧ v ≤ 16777216) :
    toFloat32 v = v := by
  have hr : roundTiesEven (f32Ulp 105 1 v.natAbs) v.natAbs = v.natAbs := by
    rcases Nat.lt_or_ge v.natAbs 16777216 with hlt | hge
    · rw [f32Ulp_small _ hlt, roundTiesEven_one]
    · have he : v.natAbs = 16777216 := by omega
      rw [he]
      decide
  unfold toFloat32
  rw [hr]
  split_ifs <;> omega

/-- A sum inside the `int` range is computed exactly. -/
theorem wrap32_exact (x : Int) (h : -2147483648 ≤ x ∧ x < 2147483648) :
    wrap32 x = x := by
  unfold wrap32
  omega

/-! ## Tensor writes on a partially filled tensor -/

theorem pad_length (done : List Int) (total : Nat) (h : done.length ≤ total) :
    (pad done total).length = total := by
  simp [pad]; omega

theorem pad_full (done : List Int) (total : Nat) (h : total ≤ done.length) :
    pad done total = done := by
  simp [pad, Nat.sub_eq_zero_of_le h]

theorem setAt_pad (done : List Int) (total : Nat) (v : Int)
    (h : done.length < total) :
    setAt (pad done total) done.length v = some (pad (done ++ [toFloat32 v]) total) := by
  obtain ⟨k, hk⟩ : ∃ k, total - done.length = k + 1 := ⟨total - done.length - 1, by omega⟩
  have hk2 : total - (done.length + 1) = k := by omega
  have hlen : done.length < (pad done total).length := by
    rw [pad_length done total h.le]; exact h
  unfold setAt
  rw [if_pos hlen]
  simp [pad, hk, hk2, List.replicate_succ, List.set_append]

theorem slotPad_length (done : List Int) (total : Nat) (c : Int)
    (h : done.length ≤ total) : (slotPad done total c).length = total + 1 := by
  simp [slotPad]; omega

theorem slotPad_full (done : List Int) (total : Nat) (c : Int)
    (h : total ≤ done.length) : slotPad done total c = done ++ [c] := by
  simp [slotPad, Nat.sub_eq_zero_of_le h]

/-- The store of a part start goes into the slot of the next part. -/
theorem setAt_slotPad_start (done : List Int) (total : Nat) (c v : Int)
    (h : done.length ≤ total) :
    setAt (slotPad done total c) done.length v
      = some (slotPad done total (toFloat32 v)) := by
  have hlen : done.length < (slotPad done total c).length := by
    rw [slotPad_length done total c h]; omega
  unfold setAt
  rw [if_pos hlen]
  simp [slotPad, List.set_append]

/-- The sentinel store goes into the slot after the part start just written. -/
theorem setAt_slotPad_next (done : List Int) (total : Nat) (c v : Int)
    (h : done.length < total) :
    setAt (slotPad done total c) (done.length + 1) v
      = some (slotPad (done ++ [c]) total (toFloat32 v)) := by
  obtain ⟨k, hk⟩ : ∃ k, total - done.length = k + 1 := ⟨total - done.length - 1, by omega⟩
  have hk2 : total - (done.length + 1) = k := by omega
  have hlen : done.length + 1 < (slotPad done total c).length := by
    rw [slotPad_length done total c h.le]; omega
  unfold setAt
  rw [if_pos hlen]
  simp [slotPad, hk, hk2, List.replicate_succ, List.set_append]

theorem slotPad_shift (done : List Int) (total : Nat) (c : Int)
    (h : done.length < total) :
    slotPad done total c = slotPad (done ++ [c]) total 0 := by
  obtain ⟨k, hk⟩ : ∃ k, total - done.length = k + 1 := ⟨total - done.length - 1, by omega⟩
  have hk2 : total - (done.length + 1) = k := by omega
  simp [slotPad, hk, hk2, List.replicate_succ]

/-- One iteration of the inner loop on a partially filled pair of tensors. -/
theorem fillPart_slotPad (ps : Int) (indptr : List Int) (nn : Int) (i pid T : Nat)
    (P R : List Int) (c : Int) (hPR : P.length = R.length) (hT : P.length < T) :
    fillPart ps indptr nn i ⟨slotPad P T c, pad R T, P.length⟩ pid
      = some ⟨slotPad (P ++ [toFloat32 (partBegOf ps indptr i pid)]) T
                (sentinelVal ps indptr nn i pid),
              pad (R ++ [toFloat32 (i : Int)]) T, P.length + 1⟩ := by
  have h1 := setAt_slotPad_start P T c (partBegOf ps indptr i pid) hT.le
  have h2 := setAt_pad R T (i : Int) (by omega)
  rw [← hPR] at h2
  have h3 := setAt_slotPad_next P T (toFloat32 (partBegOf ps indptr i pid))
    (partEndOf ps indptr i pid) hT
  by_cases hs : (i : Int) = nn - 1 ∧
      partEndOf ps indptr i pid = indptr_acc indptr (i + 1)
  · have hv : sentinelVal ps indptr nn i pid = toFloat32 (partEndOf ps indptr i pid) := by
      unfold sentinelVal; rw [if_pos hs]
    rw [hv]
    unfold partEndOf partBegOf at hs h3
    unfold partBegOf at h1
    simp only [fillPart, h1, h2, Option.bind_eq_bind, Option.some_bind, if_pos hs, h3]
    rfl
  · have hv : sentinelVal ps indptr nn i pid = 0 := by
      unfold sentinelVal; rw [if_neg hs]
    rw [hv, ← slotPad_shift P T _ hT]
    unfold partEndOf partBegOf at hs
    unfold partBegOf at h1
    simp only [fillPart, h1, h2, Option.bind_eq_bind, Option.some_bind, if_neg hs]
    rfl

/-- The inner loop body over a list of iterations: every iteration stores the
float32 of its part start and of its row index, and the slot after the last
start holds what the last iteration left there. -/
theorem fillSteps_slotPad (ps : Int) (indptr : List Int) (nn : Int) (T : Nat)
    (l : List (Nat × Nat)) :
    ∀ (P R : List Int) (c : Int), P.length = R.length → P.length + l.length ≤ T →
      l.foldlM (fillStep ps indptr nn) ⟨slotPad P T c, pad R T, P.length⟩
        = some ⟨slotPad (P ++ l.map (fun q => toFloat32 (partBegOf ps indptr q.1 q.2))) T
                  (l.foldl (fun _ q => sentinelVal ps indptr nn q.1 q.2) c),
                pad (R ++ l.map (fun q => toFloat32 (q.1 : Int))) T,
                P.length + l.length⟩ := by
  induction l with
  | nil => intro P R c _ _; simp
  | cons a l ih =>
    intro P R c hPR hT
    simp only [List.length_cons] at hT
    have step := fillPart_slotPad ps indptr nn a.1 a.2 T P R c hPR (by omega)
    have hl : (P ++ [toFloat32 (partBegOf ps indptr a.1 a.2)]).length = P.length + 1 := by
      simp
    have rest := ih (P ++ [toFloat32 (partBegOf ps indptr a.1 a.2)])
      (R ++ [toFloat32 (a.1 : Int)]) (sentinelVal ps indptr nn a.1 a.2)
      (by simp; omega) (by rw [hl]; omega)
    rw [hl] at rest
    rw [List.foldlM_cons]
    show (fillPart ps indptr nn a.1 ⟨slotPad P T c, pad R T, P.length⟩ a.2).bind _ = _
    rw [step, Option.some_bind, rest]
    simp [Nat.add_assoc, Nat.add_comm 1]

/-! ## Rows of a non-decreasing offset array -/

theorem chain_step (indptr : List Int) (h : List.Chain' (· ≤ ·) indptr) (i : Nat)
    (hi : i + 1 < indptr.length) :
    indptr_acc indptr i ≤ indptr_acc indptr (i + 1) := by
  have := (List.chain'_iff_get.mp h) i (by omega)
  unfold indptr_acc
  rw [List.getD_eq_getElem indptr 0 (show i < indptr.length by omega),
    List.getD_eq_getElem indptr 0 hi]
  simpa using this

theorem rowNumParts_cast (ps : Int) (indptr : List Int) (hps : 1 ≤ ps)
    (h : List.Chain' (· ≤ ·) indptr) (i : Nat) (hi : i + 1 < indptr.length) :
    ((rowNumParts ps indptr i : Nat) : Int)
      = thisNumParts (indptr_acc indptr (i + 1) - indptr_acc indptr i) ps := by
  have hd := chain_step indptr h i hi
  exact Int.toNat_of_nonneg (thisNumParts_nonneg _ ps (by omega) hps)

/-- Bounds relating the part count of a row to its degree. -/
theorem rowNumParts_bounds (ps : Int) (indptr : List Int) (hps : 1 ≤ ps)
    (h : List.Chain' (· ≤ ·) indptr) (i : Nat) (hi : i + 1 < indptr.length) :
    indptr_acc indptr (i + 1) - indptr_acc indptr i ≤ (rowNumParts ps indptr i : Int) * ps ∧
    (rowNumParts ps indptr i : Int) * ps
      < indptr_acc indptr (i + 1) - indptr_acc indptr i + ps := by
  rw [rowNumParts_cast ps indptr hps h i hi]
  exact thisNumParts_bounds _ ps (by have := chain_step indptr h i hi; omega) hps

/-- A part that is not the last one of its row ends before the row does. -/
theorem exactEndOf_inner (ps : Int) (indptr : List Int) (hps : 1 ≤ ps)
    (h : List.Chain' (· ≤ ·) indptr) (i : Nat) (hi : i + 1 < indptr.length)
    (pid : Nat) (hp : pid + 1 < rowNumParts ps indptr i) :
    exactEndOf ps indptr i pid = partBegOf ps indptr i pid + ps ∧
    exactEndOf ps indptr i pid < indptr_acc indptr (i + 1) := by
  have hb := rowNumParts_bounds ps indptr hps h i hi
  have hp2 : ((pid : Int) + 2) ≤ (rowNumParts ps indptr i : Int) := by exact_mod_cast hp
  have hlt : partBegOf ps indptr i pid + ps < indptr_acc indptr (i + 1) := by
    unfold partBegOf
    nlinarith
  unfold exactEndOf
  rw [if_pos hlt]
  exact ⟨rfl, hlt⟩

/-- The last part of a row ends where the row ends. -/
theorem exactEndOf_last (ps : Int) (indptr : List Int) (hps : 1 ≤ ps)
    (h : List.Chain' (· ≤ ·) indptr) (i : Nat) (hi : i + 1 < indptr.length)
    (pid : Nat) (hp : pid + 1 = rowNumParts ps indptr i) :
    exactEndOf ps indptr i pid = indptr_acc indptr (i + 1) := by
  have hb := rowNumParts_bounds ps indptr hps h i hi
  rw [← hp] at hb
  push_cast at hb
  have hge : ¬ partBegOf ps indptr i pid + ps < indptr_acc indptr (i + 1) := by
    unfold partBegOf
    nlinarith
  unfold exactEndOf
  rw [if_neg hge]

/-- Every part starts strictly inside its row. -/
theorem partBegOf_lt (ps : Int) (indptr : List Int) (hps : 1 ≤ ps)
    (h : List.Chain' (· ≤ ·) indptr) (i : Nat) (hi : i + 1 < indptr.length)
    (pid : Nat) (hp : pid < rowNumParts ps indptr i) :
    indptr_acc indptr i ≤ partBegOf ps indptr i pid ∧
    partBegOf ps indptr i pid < indptr_acc indptr (i + 1) := by
  have hb := rowNumParts_bounds ps indptr hps h i hi
  have hp2 : ((pid : Int) + 1) ≤ (rowNumParts ps indptr i : Int) := by exact_mod_cast hp
  have : (0 : Int) ≤ (pid : Int) := Int.natCast_nonneg pid
  unfold partBegOf
  constructor <;> nlinarith

theorem rowNumParts_eq_zero (ps : Int) (indptr : List Int) (i : Nat)
    (hd : indptr_acc indptr (i + 1) = indptr_acc indptr i) :
    rowNumParts ps indptr i = 0 := by
  simp [rowNumParts, hd, thisNumParts_zero]

theorem rowNumParts_pos (ps : Int) (indptr : List Int) (hps : 1 ≤ ps) (i : Nat)
    (hd : indptr_acc indptr i < indptr_acc indptr (i + 1)) :
    0 < rowNumParts ps indptr i := by
  have := thisNumParts_pos (indptr_acc indptr (i + 1) - indptr_acc indptr i) ps
    (by omega) hps
  unfold rowNumParts
  omega

/-! ## The flattened tables -/

theorem startsUpTo_succ (ps : Int) (indptr : List Int) (n : Nat) :
    startsUpTo ps indptr (n + 1) = startsUpTo ps indptr n ++ rowStarts ps indptr n := by
  simp [startsUpTo, List.range_succ, List.flatMap_append]

theorem ownersUpTo_succ (ps : Int) (indptr : List Int) (n : Nat) :
    ownersUpTo ps indptr (n + 1) = ownersUpTo ps indptr n ++ rowOwners ps indptr n := by
  simp [ownersUpTo, List.range_succ, List.flatMap_append]

theorem rowStarts_length (ps : Int) (indptr : List Int) (i : Nat) :
    (rowStarts ps indptr i).length = rowNumParts ps indptr i := by
  simp [rowStarts]

theorem rowOwners_length (ps : Int) (indptr : List Int) (i : Nat) :
    (rowOwners ps indptr i).length = rowNumParts ps indptr i := by
  simp [rowOwners]

theorem owners_length (ps : Int) (indptr : List Int) (n : Nat) :
    (ownersUpTo ps indptr n).length = (startsUpTo ps indptr n).length := by
  induction n with
  | zero => simp [ownersUpTo, startsUpTo]
  | succ n ih =>
    rw [startsUpTo_succ, ownersUpTo_succ, List.length_append, List.length_append, ih,
      rowStarts_length, rowOwners_length]

theorem startsUpTo_length_mono (ps : Int) (indptr : List Int) (n k : Nat) (h : n ≤ k) :
    (startsUpTo ps indptr n).length ≤ (startsUpTo ps indptr k).length := by
  induction k with
  | zero =>
    have : n = 0 := by omega
    subst this; exact le_refl _
  | succ k ih =>
    rcases Nat.lt_or_ge n (k + 1) with hlt | hge
    · have := ih (by omega)
      rw [startsUpTo_succ, List.length_append]; omega
    · have : n = k + 1 := by omega
      subst this; exact le_refl _

/-- The first pass counts exactly the entries of the flattened table. -/
theorem countParts_eq (ps : Int) (indptr : List Int) (hps : 1 ≤ ps)
    (h : List.Chain' (· ≤ ·) indptr) (n : Nat) (hn : n + 1 ≤ indptr.length) :
    countParts ps indptr n = ((startsUpTo ps indptr n).length : Int) := by
  induction n with
  | zero => simp [countParts, startsUpTo]
  | succ n ih =>
    have ih2 := ih (by omega)
    unfold countParts at ih2 ⊢
    rw [List.range_succ, List.foldl_append, ih2, startsUpTo_succ, List.length_append,
      rowStarts_length]
    simp only [List.foldl_cons, List.foldl_nil]
    rw [← rowNumParts_cast ps indptr hps h n (by omega)]
    push_cast
    rfl

/-! ## Parts as a list of ranges -/

theorem partsUpTo_succ (ps : Int) (indptr : List Int) (n : Nat) :
    partsUpTo ps indptr (n + 1) = partsUpTo ps indptr n ++
      (List.range (rowNumParts ps indptr n)).map (fun pid => (n, pid)) := by
  simp [partsUpTo, List.range_succ, List.flatMap_append]

theorem starts_eq_map (ps : Int) (indptr : List Int) (n : Nat) :
    startsUpTo ps indptr n
      = (partsUpTo ps indptr n).map (fun q => partBegOf ps indptr q.1 q.2) := by
  induction n with
  | zero => simp [startsUpTo, partsUpTo]
  | succ n ih =>
    rw [startsUpTo_succ, partsUpTo_succ, List.map_append, ih, rowStarts, List.map_map]
    rfl

theorem owners_eq_map (ps : Int) (indptr : List Int) (n : Nat) :
    ownersUpTo ps indptr n = (partsUpTo ps indptr n).map (fun q => (q.1 : Int)) := by
  induction n with
  | zero => simp [ownersUpTo, partsUpTo]
  | succ n ih =>
    rw [ownersUpTo_succ, partsUpTo_succ, List.map_append, ih, rowOwners, List.map_map]
    rfl

theorem mem_partsUpTo (ps : Int) (indptr : List Int) (n : Nat) (q : Nat × Nat)
    (hq : q ∈ partsUpTo ps indptr n) : q.1 < n ∧ q.2 < rowNumParts ps indptr q.1 := by
  unfold partsUpTo at hq
  rw [List.mem_flatMap] at hq
  obtain ⟨i, hi, hq⟩ := hq
  rw [List.mem_map] at hq
  obtain ⟨pid, hp, rfl⟩ := hq
  exact ⟨List.mem_range.mp hi, List.mem_range.mp hp⟩

theorem tiles_append (l₁ : List (Int × Int)) :
    ∀ (a b c : Int) (l₂ : List (Int × Int)), Tiles a b l₁ → Tiles b c l₂ →
      Tiles a c (l₁ ++ l₂) := by
  induction l₁ with
  | nil =>
    intro a b c l₂ h1 h2
    simp only [Tiles] at h1
    subst h1
    simpa using h2
  | cons r l ih =>
    intro a b c l₂ h1 h2
    simp only [Tiles] at h1
    simp only [List.cons_append, Tiles]
    exact ⟨h1.1, ih _ _ _ _ h1.2 h2⟩

theorem tiles_row_initial (ps : Int) (indptr : List Int) (hps : 1 ≤ ps)
    (h : List.Chain' (· ≤ ·) indptr) (i : Nat) (hi : i + 1 < indptr.length) (j : Nat) :
    j < rowNumParts ps indptr i →
    Tiles (indptr_acc indptr i) (partBegOf ps indptr i j)
      ((List.range j).map (fun pid => rangeOf ps indptr (i, pid))) := by
  induction j with
  | zero => intro _; simp [Tiles, partBegOf]
  | succ j ih =>
    intro hj
    rw [List.range_succ, List.map_append]
    refine tiles_append _ _ _ _ _ (ih (by omega)) ?_
    have he := (exactEndOf_inner ps indptr hps h i hi j hj).1
    simp only [List.map_cons, List.map_nil, Tiles, rangeOf, he, true_and]
    unfold partBegOf
    push_cast
    ring

theorem tiles_row (ps : Int) (indptr : List Int) (hps : 1 ≤ ps)
    (h : List.Chain' (· ≤ ·) indptr) (i : Nat) (hi : i + 1 < indptr.length) :
    Tiles (indptr_acc indptr i) (indptr_acc indptr (i + 1))
      ((List.range (rowNumParts ps indptr i)).map (fun pid => rangeOf ps indptr (i, pid))) := by
  rcases Nat.eq_zero_or_pos (rowNumParts ps indptr i) with hz | hpos
  · have hb := rowNumParts_bounds ps indptr hps h i hi
    have hd := chain_step indptr h i hi
    rw [hz] at hb
    simp only [hz, List.range_zero, List.map_nil, Tiles]
    have := hb.1
    simp at this
    omega
  · obtain ⟨m, hm⟩ : ∃ m, rowNumParts ps indptr i = m + 1 :=
      ⟨rowNumParts ps indptr i - 1, by omega⟩
    rw [hm, List.range_succ, List.map_append]
    refine tiles_append _ _ _ _ _ (tiles_row_initial ps indptr hps h i hi m (by omega)) ?_
    have he := exactEndOf_last ps indptr hps h i hi m hm.symm
    simp [Tiles, rangeOf, he]

theorem tiles_upTo (ps : Int) (indptr : List Int) (hps : 1 ≤ ps)
    (h : List.Chain' (· ≤ ·) indptr) (n : Nat) :
    n + 1 ≤ indptr.length →
    Tiles (indptr_acc indptr 0) (indptr_acc indptr n)
      ((partsUpTo ps indptr n).map (rangeOf ps indptr)) := by
  induction n with
  | zero => intro _; simp [partsUpTo, Tiles]
  | succ n ih =>
    intro hn
    rw [partsUpTo_succ, List.map_append, List.map_map]
    exact tiles_append _ _ _ _ _ (ih (by omega)) (tiles_row ps indptr hps h n (by omega))

theorem tiles_nil_eq (a b : Int) (h : Tiles a b []) : a = b := by
  simpa [Tiles] using h

theorem tiles_head (l : List (Int × Int)) (a b : Int) (h : Tiles a b l)
    (hl : 0 < l.length) : (l.getD 0 (0, 0)).1 = a := by
  cases l with
  | nil => simp at hl
  | cons r l => simp only [Tiles] at h; simpa using h.1

theorem tiles_adjacent (l : List (Int × Int)) :
    ∀ (a b : Int), Tiles a b l → ∀ k, k + 1 < l.length →
      (l.getD k (0, 0)).2 = (l.getD (k + 1) (0, 0)).1 := by
  induction l with
  | nil => intro a b _ k hk; simp at hk
  | cons r l ih =>
    intro a b h k hk
    simp only [Tiles] at h
    cases k with
    | zero =>
      have := tiles_head l r.2 b h.2 (by simpa using hk)
      simpa using this.symm
    | succ k =>
      have := ih r.2 b h.2 k (by simpa using hk)
      simpa using this

theorem tiles_last (l : List (Int × Int)) :
    ∀ (a b : Int), Tiles a b l → 0 < l.length →
      (l.getD (l.length - 1) (0, 0)).2 = b := by
  induction l with
  | nil => intro a b _ hl; simp at hl
  | cons r l ih =>
    intro a b h _
    simp only [Tiles] at h
    cases l with
    | nil => simpa [Tiles] using h.2
    | cons r2 l2 =>
      have := ih r.2 b h.2 (by simp)
      simpa using this

/-! ## The result of the second pass -/

theorem parts_length (ps : Int) (indptr : List Int) (n : Nat) :
    (partsUpTo ps indptr n).length = (ownersUpTo ps indptr n).length := by
  rw [owners_eq_map, List.length_map]

theorem countParts_eq_parts (ps : Int) (indptr : List Int) (hps : 1 ≤ ps)
    (h : List.Chain' (· ≤ ·) indptr) :
    countParts ps indptr (indptr.length - 1)
      = ((partsUpTo ps indptr (indptr.length - 1)).length : Int) := by
  rcases Nat.eq_zero_or_pos indptr.length with hz | hpos
  · simp [hz, countParts, partsUpTo]
  · rw [countParts_eq ps indptr hps h _ (by omega), parts_length, owners_length]

/-- The nested loops of the second pass run the inner body over the iterations
`(i, pid)` in loop order. -/
theorem second_pass_flat (ps : Int) (indptr : List Int) (nn : Int) (st : FillState)
    (n : Nat) :
    (List.range n).foldlM (fillRow ps indptr nn) st
      = (partsUpTo ps indptr n).foldlM (fillStep ps indptr nn) st := by
  induction n with
  | zero => simp [partsUpTo]
  | succ n ih =>
    rw [List.range_succ, List.foldlM_append, ih, partsUpTo_succ, List.foldlM_append]
    congr 1
    funext s
    rw [List.foldlM_map]
    simp only [List.foldlM_cons, List.foldlM_nil, bind_pure]
    rfl

/-- On valid input the second pass, started on the tensors allocated from the
count of the first pass, completes: the part table holds the float32 of every
part start followed by the content of the last slot, the part-to-row map the
float32 of every row index, and the part counter is the number of parts. -/
theorem second_pass_general (ps : Int) (indptr : List Int) :
    (List.range (indptr.length - 1)).foldlM
        (fillRow ps indptr ((indptr.length : Int) - 1))
        ⟨List.replicate ((partsUpTo ps indptr (indptr.length - 1)).length + 1) 0,
         List.replicate (partsUpTo ps indptr (indptr.length - 1)).length 0, 0⟩
      = some ⟨(partsUpTo ps indptr (indptr.length - 1)).map
                (fun q => toFloat32 (partBegOf ps indptr q.1 q.2)) ++ [finalSlot ps indptr],
              (partsUpTo ps indptr (indptr.length - 1)).map
                (fun q => toFloat32 (q.1 : Int)),
              (partsUpTo ps indptr (indptr.length - 1)).length⟩ := by
  have h := fillSteps_slotPad ps indptr ((indptr.length : Int) - 1)
    (partsUpTo ps indptr (indptr.length - 1)).length
    (partsUpTo ps indptr (indptr.length - 1)) [] [] 0 rfl (by simp)
  rw [second_pass_flat]
  have e1 : slotPad [] (partsUpTo ps indptr (indptr.length - 1)).length 0
      = List.replicate ((partsUpTo ps indptr (indptr.length - 1)).length + 1) 0 := by
    simp [slotPad, List.replicate_succ]
  have e2 : pad [] (partsUpTo ps indptr (indptr.length - 1)).length
      = List.replicate (partsUpTo ps indptr (indptr.length - 1)).length 0 := by
    simp [pad]
  rw [e1, e2] at h
  simp only [List.length_nil, List.nil_append, Nat.zero_add] at h
  rw [h, slotPad_full _ _ _ (by simp), pad_full _ _ (by simp)]
  rfl

/-- Characterisation of the result on valid input. -/
theorem build_part_general (ps : Int) (indptr : List Int) (hps : 1 ≤ ps)
    (h : List.Chain' (· ≤ ·) indptr) :
    build_part ps indptr
      = some ((partsUpTo ps indptr (indptr.length - 1)).map
                (fun q => toFloat32 (partBegOf ps indptr q.1 q.2)) ++ [finalSlot ps indptr],
              (partsUpTo ps indptr (indptr.length - 1)).map
                (fun q => toFloat32 (q.1 : Int))) := by
  have hps0 : ¬ (ps = 0 ∧ 0 < (indptr.length : Int) - 1) := fun hc => by omega
  have hN : ((indptr.length : Int) - 1).toNat = indptr.length - 1 := by omega
  have hcount := countParts_eq_parts ps indptr hps h
  have hz1 : zeros (((partsUpTo ps indptr (indptr.length - 1)).length : Int) + 1)
      = some (List.replicate ((partsUpTo ps indptr (indptr.length - 1)).length + 1) 0) := by
    unfold zeros
    rw [if_neg (by omega)]
    congr 2
  have hz2 : zeros ((partsUpTo ps indptr (indptr.length - 1)).length : Int)
      = some (List.replicate (partsUpTo ps indptr (indptr.length - 1)).length 0) := by
    unfold zeros
    rw [if_neg (by omega)]
    simp
  unfold build_part
  simp only [if_neg hps0, hN, hcount, hz1, hz2, Option.bind_eq_bind, Option.some_bind,
    second_pass_general ps indptr]
  rfl

/-! ## Inputs whose stored values are exact -/

theorem indptr_acc_mem (indptr : List Int) (i : Nat) (hi : i < indptr.length) :
    indptr_acc indptr i ∈ indptr := by
  unfold indptr_acc
  rw [List.getD_eq_getElem indptr 0 hi]
  exact List.getElem_mem _

/-- With offsets of magnitude at most 2^24 every part start is stored
exactly. -/
theorem toFloat32_partBegOf (ps : Int) (indptr : List Int) (hps : 1 ≤ ps)
    (h : List.Chain' (· ≤ ·) indptr)
    (hoff : ∀ x ∈ indptr, -16777216 ≤ x ∧ x ≤ 16777216)
    (i : Nat) (hi : i + 1 < indptr.length) (pid : Nat)
    (hp : pid < rowNumParts ps indptr i) :
    toFloat32 (partBegOf ps indptr i pid) = partBegOf ps indptr i pid := by
  have hb := partBegOf_lt ps indptr hps h i hi pid hp
  have h1 := hoff _ (indptr_acc_mem indptr i (by omega))
  have h2 := hoff _ (indptr_acc_mem indptr (i + 1) hi)
  exact toFloat32_exact _ ⟨by omega, by omega⟩

theorem starts_stored_exactly (ps : Int) (indptr : List Int) (hps : 1 ≤ ps)
    (h : List.Chain' (· ≤ ·) indptr)
    (hoff : ∀ x ∈ indptr, -16777216 ≤ x ∧ x ≤ 16777216) :
    (partsUpTo ps indptr (indptr.length - 1)).map
        (fun q => toFloat32 (partBegOf ps indptr q.1 q.2))
      = startsUpTo ps indptr (indptr.length - 1) := by
  rw [starts_eq_map]
  apply List.map_congr_left
  intro q hq
  have hm := mem_partsUpTo ps indptr _ q hq
  exact toFloat32_partBegOf ps indptr hps h hoff q.1 (by omega) q.2 hm.2

/-- With at most 2^24 offsets every row index is stored exactly. -/
theorem owners_stored_exactly (ps : Int) (indptr : List Int)
    (hrows : indptr.length ≤ 16777216) :
    (partsUpTo ps indptr (indptr.length - 1)).map (fun q => toFloat32 (q.1 : Int))
      = ownersUpTo ps indptr (indptr.length - 1) := by
  rw [owners_eq_map]
  apply List.map_congr_left
  intro q hq
  have hm := mem_partsUpTo ps indptr _ q hq
  exact toFloat32_exact _ ⟨by omega, by omega⟩

/-- On valid input whose stored values are exact, the part table is the
flattened list of part starts followed by the last slot, the part-to-row map
is the flattened list of row indices. -/
theorem build_part_tables (ps : Int) (indptr : List Int) (hps : 1 ≤ ps)
    (h : List.Chain' (· ≤ ·) indptr)
    (hoff : ∀ x ∈ indptr, -16777216 ≤ x ∧ x ≤ 16777216)
    (hrows : indptr.length ≤ 16777216) :
    build_part ps indptr
      = some (startsUpTo ps indptr (indptr.length - 1) ++ [finalSlot ps indptr],
              ownersUpTo ps indptr (indptr.length - 1)) := by
  rw [build_part_general ps indptr hps h, starts_stored_exactly ps indptr hps h hoff,
    owners_stored_exactly ps indptr hrows]

theorem foldl_sentinelVal_zero (ps : Int) (indptr : List Int) (nn : Int)
    (l : List (Nat × Nat)) (hl : ∀ q ∈ l, (q.1 : Int) ≠ nn - 1) :
    l.foldl (fun _ q => sentinelVal ps indptr nn q.1 q.2) 0 = 0 := by
  induction l with
  | nil => rfl
  | cons a l ih =>
    have ha : sentinelVal ps indptr nn a.1 a.2 = 0 := by
      unfold sentinelVal
      rw [if_neg (fun hc => hl a (List.mem_cons_self _ _) hc.1)]
    rw [List.foldl_cons, ha]
    exact ih (fun q hq => hl q (List.mem_cons_of_mem _ hq))

/-- Without a part in the last row the last slot keeps its initial zero. -/
theorem finalSlot_eq_zero (ps : Int) (indptr : List Int)
    (hz : indptr.length ≤ 1 ∨ rowNumParts ps indptr (indptr.length - 2) = 0) :
    finalSlot ps indptr = 0 := by
  unfold finalSlot
  apply foldl_sentinelVal_zero
  intro q hq
  rcases Nat.lt_or_ge 1 indptr.length with hlen | hlen
  · have hrow : rowNumParts ps indptr (indptr.length - 2) = 0 := by
      rcases hz with hz | hz
      · omega
      · exact hz
    have e : indptr.length - 1 = (indptr.length - 2) + 1 := by omega
    rw [e, partsUpTo_succ, hrow] at hq
    simp only [List.range_zero, List.map_nil, List.append_nil] at hq
    have := (mem_partsUpTo ps indptr _ q hq).1
    omega
  · have e : indptr.length - 1 = 0 := by omega
    rw [e] at hq
    simp [partsUpTo] at hq

/-- With a part in the last row the last slot holds what the final part of
the last row left there. -/
theorem finalSlot_eq_sentinelVal (ps : Int) (indptr : List Int)
    (hlen : 2 ≤ indptr.length) (hpos : 0 < rowNumParts ps indptr (indptr.length - 2)) :
    finalSlot ps indptr
      = sentinelVal ps indptr ((indptr.length : Int) - 1) (indptr.length - 2)
          (rowNumParts ps indptr (indptr.length - 2) - 1) := by
  obtain ⟨m, hm⟩ : ∃ m, rowNumParts ps indptr (indptr.length - 2) = m + 1 :=
    ⟨rowNumParts ps indptr (indptr.length - 2) - 1, by omega⟩
  have e : indptr.length - 1 = (indptr.length - 2) + 1 := by omega
  unfold finalSlot
  rw [e, partsUpTo_succ, hm, List.range_succ, List.map_append, ← List.append_assoc,
    List.foldl_append]
  simp

/-- The 32-bit sum of line 101 is exact when every offset plus `partSize`
stays in the `int` range. -/
theorem partEndOf_eq_exact (ps : Int) (indptr : List Int) (hps : 1 ≤ ps)
    (h : List.Chain' (· ≤ ·) indptr)
    (hovf : ∀ x ∈ indptr, -2147483648 ≤ x ∧ x + ps ≤ 2147483648)
    (i : Nat) (hi : i + 1 < indptr.length) (pid : Nat)
    (hp : pid < rowNumParts ps indptr i) :
    partEndOf ps indptr i pid = exactEndOf ps indptr i pid := by
  have hb := partBegOf_lt ps indptr hps h i hi pid hp
  have h1 := hovf _ (indptr_acc_mem indptr i (by omega))
  have h2 := hovf _ (indptr_acc_mem indptr (i + 1) hi)
  unfold partEndOf exactEndOf
  rw [wrap32_exact _ ⟨by omega, by omega⟩]

/-- When nothing overflows and the stored values are exact, the last slot
holds `indptr[N]` if the last row has a part and zero otherwise. -/
theorem finalSlot_eq_lastSlot (ps : Int) (indptr : List Int) (hps : 1 ≤ ps)
    (h : List.Chain' (· ≤ ·) indptr)
    (hoff : ∀ x ∈ indptr, -16777216 ≤ x ∧ x ≤ 16777216)
    (hovf : ∀ x ∈ indptr, -2147483648 ≤ x ∧ x + ps ≤ 2147483648) :
    finalSlot ps indptr = lastSlot indptr := by
  rcases Nat.lt_or_ge 1 indptr.length with hlen | hlen
  · have e : indptr.length - 2 + 1 = indptr.length - 1 := by omega
    have hstep := chain_step indptr h (indptr.length - 2) (by omega)
    rw [e] at hstep
    rcases hstep.lt_or_eq with hd | hd
    · have hpos := rowNumParts_pos ps indptr hps (indptr.length - 2) (by rw [e]; exact hd)
      have hend := exactEndOf_last ps indptr hps h (indptr.length - 2) (by omega)
        (rowNumParts ps indptr (indptr.length - 2) - 1) (by omega)
      have hex := partEndOf_eq_exact ps indptr hps h hovf (indptr.length - 2) (by omega)
        (rowNumParts ps indptr (indptr.length - 2) - 1) (by omega)
      rw [finalSlot_eq_sentinelVal ps indptr (by omega) hpos]
      unfold sentinelVal lastSlot
      rw [hex, hend, e, if_pos ⟨by omega, rfl⟩, if_pos ⟨by omega, hd⟩]
      exact toFloat32_exact _ (hoff _ (indptr_acc_mem indptr _ (by omega)))
    · rw [finalSlot_eq_zero ps indptr
        (Or.inr (rowNumParts_eq_zero ps indptr _ (by rw [e]; exact hd.symm)))]
      unfold lastSlot
      rw [if_neg (fun hc => by omega)]
  · rw [finalSlot_eq_zero ps indptr (Or.inl hlen)]
    unfold lastSlot
    rw [if_neg (fun hc => by omega)]

/-- The result on valid input when the stored values are exact and nothing
overflows. -/
theorem build_part_eq (ps : Int) (indptr : List Int) (hps : 1 ≤ ps)
    (h : List.Chain' (· ≤ ·) indptr)
    (hoff : ∀ x ∈ indptr, -16777216 ≤ x ∧ x ≤ 16777216)
    (hrows : indptr.length ≤ 16777216)
    (hovf : ∀ x ∈ indptr, -2147483648 ≤ x ∧ x + ps ≤ 2147483648) :
    build_part ps indptr
      = some (startsUpTo ps indptr (indptr.length - 1) ++ [lastSlot indptr],
              ownersUpTo ps indptr (indptr.length - 1)) := by
  rw [build_part_tables ps indptr hps h hoff hrows,
    finalSlot_eq_lastSlot ps indptr hps h hoff hovf]

/-! ## Reading parts off the returned tables -/

/-- Part `k` of the returned tables is the `k`-th pair `(i, pid)` in loop
order: its start, its row and its end are the ones computed for that pair. -/
theorem part_at (ps : Int) (indptr : List Int) (ls : Int) (n k : Nat)
    (hk : k < (ownersUpTo ps indptr n).length) :
    ∃ q : Nat × Nat, q ∈ partsUpTo ps indptr n ∧
      ((partsUpTo ps indptr n).map (rangeOf ps indptr)).getD k (0, 0) = rangeOf ps indptr q ∧
      partStart (startsUpTo ps indptr n ++ [ls]) k = partBegOf ps indptr q.1 q.2 ∧
      (ownersUpTo ps indptr n).getD k 0 = (q.1 : Int) ∧
      partEnd ps indptr (startsUpTo ps indptr n ++ [ls]) (ownersUpTo ps indptr n) k
        = exactEndOf ps indptr q.1 q.2 := by
  have hk2 : k < (partsUpTo ps indptr n).length := by rw [parts_length]; exact hk
  have hs : partStart (startsUpTo ps indptr n ++ [ls]) k
      = partBegOf ps indptr ((partsUpTo ps indptr n)[k]).1 ((partsUpTo ps indptr n)[k]).2 := by
    unfold partStart
    rw [List.getD_append _ _ _ _ (by rw [starts_eq_map, List.length_map]; exact hk2),
      List.getD_eq_getElem _ _ (by rw [starts_eq_map, List.length_map]; exact hk2)]
    simp [starts_eq_map]
  have ho : (ownersUpTo ps indptr n).getD k 0 = (((partsUpTo ps indptr n)[k]).1 : Int) := by
    rw [List.getD_eq_getElem _ _ hk]
    simp [owners_eq_map]
  refine ⟨(partsUpTo ps indptr n)[k], List.getElem_mem _, ?_, hs, ho, ?_⟩
  · rw [List.getD_eq_getElem _ _ (by rw [List.length_map]; exact hk2)]
    simp
  · unfold partEnd
    rw [hs, ho, Int.toNat_ofNat]
    unfold exactEndOf
    rw [min_def]
    split_ifs <;> omega

/-- On valid input whose stored values are exact the ranges read off the
returned tables tile `[indptr[0], indptr[N])`. -/
theorem build_part_tiles (ps : Int) (indptr : List Int) (hps : 1 ≤ ps)
    (h : List.Chain' (· ≤ ·) indptr)
    (hoff : ∀ x ∈ indptr, -16777216 ≤ x ∧ x ≤ 16777216)
    (hrows : indptr.length ≤ 16777216) :
    ∃ pt p2n, build_part ps indptr = some (pt, p2n) ∧
      (0 < p2n.length → partStart pt 0 = indptr_acc indptr 0) ∧
      (∀ k, k + 1 < p2n.length → partEnd ps indptr pt p2n k = partStart pt (k + 1)) ∧
      (0 < p2n.length → partEnd ps indptr pt p2n (p2n.length - 1)
          = indptr_acc indptr (indptr.length - 1)) ∧
      (p2n.length = 0 → indptr_acc indptr 0 = indptr_acc indptr (indptr.length - 1)) := by
  refine ⟨_, _, build_part_tables ps indptr hps h hoff hrows, ?_⟩
  rcases Nat.eq_zero_or_pos indptr.length with hz | hpos
  · have hnil : indptr = [] := List.length_eq_zero.mp hz
    subst hnil
    simp [ownersUpTo]
  have ht := tiles_upTo ps indptr hps h (indptr.length - 1) (by omega)
  have hlen : ((partsUpTo ps indptr (indptr.length - 1)).map (rangeOf ps indptr)).length
      = (ownersUpTo ps indptr (indptr.length - 1)).length := by
    rw [List.length_map, parts_length]
  refine ⟨?_, ?_, ?_, ?_⟩
  · intro h0
    obtain ⟨q, _, hr, hs, _, _⟩ := part_at ps indptr (finalSlot ps indptr) (indptr.length - 1) 0 h0
    have := tiles_head _ _ _ ht (by rw [hlen]; exact h0)
    rw [hr] at this
    rw [hs]
    exact this
  · intro k hk
    obtain ⟨q, _, hr, _, _, he⟩ := part_at ps indptr (finalSlot ps indptr) (indptr.length - 1) k (by omega)
    obtain ⟨q2, _, hr2, hs2, _, _⟩ := part_at ps indptr (finalSlot ps indptr) (indptr.length - 1) (k + 1) hk
    have := tiles_adjacent _ _ _ ht k (by rw [hlen]; exact hk)
    rw [hr, hr2] at this
    rw [he, hs2]
    exact this
  · intro h0
    obtain ⟨q, _, hr, _, _, he⟩ := part_at ps indptr (finalSlot ps indptr) (indptr.length - 1)
      ((ownersUpTo ps indptr (indptr.length - 1)).length - 1) (by omega)
    have := tiles_last _ _ _ ht (by rw [hlen]; exact h0)
    rw [hlen, hr] at this
    rw [he]
    exact this
  · intro h0
    have hnil : (partsUpTo ps indptr (indptr.length - 1)).map (rangeOf ps indptr) = [] :=
      List.length_eq_zero.mp (by rw [hlen]; exact h0)
    rw [hnil] at ht
    exact tiles_nil_eq _ _ ht

/-! ## The part count as a ceiling -/

theorem rowNumParts_eq_ceil (ps : Int) (indptr : List Int) (hps : 1 ≤ ps)
    (h : List.Chain' (· ≤ ·) indptr) (i : Nat) (hi : i + 1 < indptr.length) :
    rowNumParts ps indptr i
      = ⌈((indptr_acc indptr (i + 1) - indptr_acc indptr i : Int) : ℚ) / (ps : ℚ)⌉.toNat := by
  have hd := chain_step indptr h i hi
  unfold rowNumParts
  rw [thisNumParts_eq_ceil _ ps (by omega) hps]

/-- The flattened start table, with the per-row count written as a ceiling. -/
theorem startsUpTo_eq_ceil (ps : Int) (indptr : List Int) (hps : 1 ≤ ps)
    (h : List.Chain' (· ≤ ·) indptr) (n : Nat) :
    n + 1 ≤ indptr.length →
    startsUpTo ps indptr n = (List.range n).flatMap (fun i =>
      (List.range ⌈((indptr_acc indptr (i + 1) - indptr_acc indptr i : Int) : ℚ)
          / (ps : ℚ)⌉.toNat).map
        (fun (pid : Nat) => indptr_acc indptr i + (pid : Int) * ps)) := by
  induction n with
  | zero => intro _; simp [startsUpTo]
  | succ n ih =>
    intro hn
    rw [startsUpTo_succ, ih (by omega), List.range_succ, List.flatMap_append,
      List.flatMap_singleton, rowStarts, rowNumParts_eq_ceil ps indptr hps h n (by omega)]
    rfl

/-- The flattened row table, with the per-row count written as a ceiling. -/
theorem ownersUpTo_eq_ceil (ps : Int) (indptr : List Int) (hps : 1 ≤ ps)
    (h : List.Chain' (· ≤ ·) indptr) (n : Nat) :
    n + 1 ≤ indptr.length →
    ownersUpTo ps indptr n = (List.range n).flatMap (fun i =>
      (List.range ⌈((indptr_acc indptr (i + 1) - indptr_acc indptr i : Int) : ℚ)
          / (ps : ℚ)⌉.toNat).map
        (fun (_ : Nat) => (i : Int))) := by
  induction n with
  | zero => intro _; simp [ownersUpTo]
  | succ n ih =>
    intro hn
    rw [ownersUpTo_succ, ih (by omega), List.range_succ, List.flatMap_append,
      List.flatMap_singleton, rowOwners, rowNumParts_eq_ceil ps indptr hps h n (by omega)]

theorem mem_ownersUpTo (ps : Int) (indptr : List Int) (n : Nat) (x : Int)
    (hx : x ∈ ownersUpTo ps indptr n) :
    ∃ i, i < n ∧ x = (i : Int) ∧ 0 < rowNumParts ps indptr i := by
  rw [owners_eq_map, List.mem_map] at hx
  obtain ⟨q, hq, rfl⟩ := hx
  have := mem_partsUpTo ps indptr n q hq
  exact ⟨q.1, this.1, rfl, by omega⟩

/-- The exact end offset is a minimum. -/
theorem exactEndOf_eq_min (ps : Int) (indptr : List Int) (i pid : Nat) :
    exactEndOf ps indptr i pid
      = min (partBegOf ps indptr i pid + ps) (indptr_acc indptr (i + 1)) := by
  unfold exactEndOf
  rw [min_def]
  split_ifs <;> omega

/-- When nothing overflows, within a row only the final part ends at the end
of the row. -/
theorem partEndOf_eq_iff (ps : Int) (indptr : List Int) (hps : 1 ≤ ps)
    (h : List.Chain' (· ≤ ·) indptr)
    (hovf : ∀ x ∈ indptr, -2147483648 ≤ x ∧ x + ps ≤ 2147483648)
    (i : Nat) (hi : i + 1 < indptr.length)
    (pid : Nat) (hp : pid < rowNumParts ps indptr i) :
    partEndOf ps indptr i pid = indptr_acc indptr (i + 1)
      ↔ pid + 1 = rowNumParts ps indptr i := by
  rw [partEndOf_eq_exact ps indptr hps h hovf i hi pid hp]
  constructor
  · intro he
    by_contra hne
    have := (exactEndOf_inner ps indptr hps h i hi pid (by omega)).2
    omega
  · intro he
    exact exactEndOf_last ps indptr hps h i hi pid he

/-- When nothing overflows, the sentinel condition holds exactly in the final
part of the last row. -/
theorem sentinelCond_iff (ps : Int) (indptr : List Int) (hps : 1 ≤ ps)
    (h : List.Chain' (· ≤ ·) indptr)
    (hovf : ∀ x ∈ indptr, -2147483648 ≤ x ∧ x + ps ≤ 2147483648)
    (i : Nat) (hi : i + 1 < indptr.length)
    (pid : Nat) (hp : pid < rowNumParts ps indptr i) :
    sentinelCond ps indptr ((indptr.length : Int) - 1) i pid
      ↔ i + 2 = indptr.length ∧ pid + 1 = rowNumParts ps indptr i := by
  unfold sentinelCond
  rw [partEndOf_eq_iff ps indptr hps h hovf i hi pid hp]
  constructor
  · rintro ⟨h1, h2⟩
    exact ⟨by omega, h2⟩
  · rintro ⟨h1, h2⟩
    exact ⟨by omega, h2⟩

/-- Every part read off exactly stored tables is non-empty. -/
theorem part_nonempty_at (ps : Int) (indptr : List Int) (hps : 1 ≤ ps)
    (h : List.Chain' (· ≤ ·) indptr) (ls : Int) (n k : Nat)
    (hn : n + 1 ≤ indptr.length) (hk : k < (ownersUpTo ps indptr n).length) :
    partStart (startsUpTo ps indptr n ++ [ls]) k
      < partEnd ps indptr (startsUpTo ps indptr n ++ [ls]) (ownersUpTo ps indptr n) k := by
  obtain ⟨q, hq, _, hs, _, he⟩ := part_at ps indptr ls n k hk
  have hm := mem_partsUpTo ps indptr n q hq
  have hb := partBegOf_lt ps indptr hps h q.1 (by omega) q.2 hm.2
  rw [hs, he]
  unfold exactEndOf
  split_ifs <;> omega

/-- When the stored values are exact, nothing overflows and the last row has
positive degree, each entry of the part table is followed by the end of the
part it starts. -/
theorem build_part_next_entry (ps : Int) (indptr : List Int) (hps : 1 ≤ ps)
    (h : List.Chain' (· ≤ ·) indptr)
    (hoff : ∀ x ∈ indptr, -16777216 ≤ x ∧ x ≤ 16777216)
    (hrows : indptr.length ≤ 16777216)
    (hlen : 2 ≤ indptr.length)
    (hd : indptr_acc indptr (indptr.length - 2) < indptr_acc indptr (indptr.length - 1))
    (k : Nat) (hk : k < (ownersUpTo ps indptr (indptr.length - 1)).length) :
    partStart (startsUpTo ps indptr (indptr.length - 1) ++ [lastSlot indptr]) (k + 1)
      = partEnd ps indptr (startsUpTo ps indptr (indptr.length - 1) ++ [lastSlot indptr])
          (ownersUpTo ps indptr (indptr.length - 1)) k := by
  obtain ⟨pt, p2n, hb, _, hadj, hlast, _⟩ := build_part_tiles ps indptr hps h hoff hrows
  rw [build_part_tables ps indptr hps h hoff hrows] at hb
  have hpt : startsUpTo ps indptr (indptr.length - 1) ++ [finalSlot ps indptr] = pt :=
    congrArg Prod.fst (Option.some.inj hb)
  have hp2n : ownersUpTo ps indptr (indptr.length - 1) = p2n :=
    congrArg Prod.snd (Option.some.inj hb)
  have hslen : (startsUpTo ps indptr (indptr.length - 1)).length = p2n.length := by
    rw [← owners_length, hp2n]
  have hstart : ∀ j, j < p2n.length → ∀ c : Int,
      partStart (startsUpTo ps indptr (indptr.length - 1) ++ [c]) j
        = (startsUpTo ps indptr (indptr.length - 1)).getD j 0 := by
    intro j hj c
    unfold partStart
    exact List.getD_append _ _ _ _ (by omega)
  have hend : ∀ j, j < p2n.length → ∀ c : Int,
      partEnd ps indptr (startsUpTo ps indptr (indptr.length - 1) ++ [c]) p2n j
        = min ((startsUpTo ps indptr (indptr.length - 1)).getD j 0 + ps)
            (indptr_acc indptr ((p2n.getD j 0).toNat + 1)) := by
    intro j hj c
    unfold partEnd
    rw [hstart j hj c]
  rw [hp2n]
  rw [hp2n] at hk
  rw [hend k hk]
  rcases Nat.lt_or_ge (k + 1) p2n.length with hlt | hge
  · have := hadj k hlt
    rw [← hpt, hend k hk, hstart (k + 1) hlt] at this
    rw [hstart (k + 1) hlt]
    exact this.symm
  · have hk1 : k = p2n.length - 1 := by omega
    have := hlast (by omega)
    rw [← hk1, ← hpt, hend k hk] at this
    rw [this]
    have hls : lastSlot indptr = indptr_acc indptr (indptr.length - 1) := by
      unfold lastSlot
      rw [if_pos ⟨by omega, hd⟩]
    have hk2 : k + 1 = (startsUpTo ps indptr (indptr.length - 1)).length := by omega
    simp [partStart, hls, hk2]

/-! ## The second pass as a sequence of iterations -/

/-- C1 fails as stated: for the valid input `indptr = [16777216, 16777218]`,
`partSize = 1` the start 16777217 of the second part is stored as the float32
16777216, so the call returns the part table `[16777216, 16777216, 16777218]`
and the first range ends at 16777217 while the second starts at 16777216. -/
theorem ranges_tile_offsets_counterexample :
    (1 : Int) ≤ 1 ∧ List.Chain' (· ≤ ·) ([16777216, 16777218] : List Int) ∧
    build_part 1 [16777216, 16777218]
      = some ([16777216, 16777216, 16777218], [0, 0]) ∧
    ∃ partTable partToRow,
      build_part 1 [16777216, 16777218] = some (partTable, partToRow) ∧
      0 + 1 < partToRow.length ∧
      partEnd 1 [16777216, 16777218] partTable partToRow 0 = 16777217 ∧
      partStart partTable (0 + 1) = 16777216 ∧
      partEnd 1 [16777216, 16777218] partTable partToRow 0 ≠ partStart partTable (0 + 1) :=
  ⟨by decide, by simp, by decide, [16777216, 16777216, 16777218], [0, 0],
    by decide, by decide, by decide, by decide, by decide⟩

/-- C1 as amended: on valid input (non-decreasing `indptr`, `partSize ≥ 1`)
with offsets of magnitude at most 2^24 and at most 2^24 offsets, so that every
stored value is exact in float32, the call returns, and the ranges
`[start_k, end_k)` with `start_k = partTable[k]` and `end_k = min (start_k +
partSize) (indptr[partToRow[k] + 1])` tile `[indptr[0], indptr[N])` in output
order: the first range starts at `indptr[0]`, each range ends where the next
starts, the last one ends at `indptr[N]`, and without parts `indptr[0] =
indptr[N]`. -/
theorem ranges_tile_offsets (partSize : Int) (indptr : List Int)
    (hps : 1 ≤ partSize) (hmono : List.Chain' (· ≤ ·) indptr)
    (hoff : ∀ x ∈ indptr, -16777216 ≤ x ∧ x ≤ 16777216)
    (hrows : indptr.length ≤ 16777216) :
    ∃ partTable partToRow, build_part partSize indptr = some (partTable, partToRow) ∧
      (0 < partToRow.length → partStart partTable 0 = indptr_acc indptr 0) ∧
      (∀ k, k + 1 < partToRow.length →
        partEnd partSize indptr partTable partToRow k = partStart partTable (k + 1)) ∧
      (0 < partToRow.length →
        partEnd partSize indptr partTable partToRow (partToRow.length - 1)
          = indptr_acc indptr (indptr.length - 1)) ∧
      (partToRow.length = 0 →
        indptr_acc indptr 0 = indptr_acc indptr (indptr.length - 1)) :=
  build_part_tiles partSize indptr hps hmono hoff hrows

theorem ranges_tile_offsets_witness :
    (1 : Int) ≤ 4 ∧ List.Chain' (· ≤ ·) ([0, 5, 5, 12] : List Int) ∧
    (∀ x ∈ ([0, 5, 5, 12] : List Int), -16777216 ≤ x ∧ x ≤ 16777216) ∧
    ([0, 5, 5, 12] : List Int).length ≤ 16777216 ∧
    ∃ partTable partToRow, build_part 4 [0, 5, 5, 12] = some (partTable, partToRow) ∧
      (0 < partToRow.length → partStart partTable 0 = indptr_acc [0, 5, 5, 12] 0) ∧
      (∀ k, k + 1 < partToRow.length →
        partEnd 4 [0, 5, 5, 12] partTable partToRow k = partStart partTable (k + 1)) ∧
      (0 < partToRow.length →
        partEnd 4 [0, 5, 5, 12] partTable partToRow (partToRow.length - 1)
          = indptr_acc [0, 5, 5, 12] (([0, 5, 5, 12] : List Int).length - 1)) ∧
      (partToRow.length = 0 →
        indptr_acc [0, 5, 5, 12] 0
          = indptr_acc [0, 5, 5, 12] (([0, 5, 5, 12] : List Int).length - 1)) :=
  ⟨by decide, by simp, by decide, by decide,
    ranges_tile_offsets 4 [0, 5, 5, 12] (by decide) (by simp) (by decide) (by decide)⟩

/-- C2 fails as stated: for the valid input `indptr = [16777217, 16777219]`,
`partSize = 4` the only part is part 0 of row 0, its start
`indptr[0] + 0 * 4 = 16777217` is stored as the float32 16777216, and the call
returns the part table `[16777216, 16777220]`. -/
theorem parts_row_major_counterexample :
    (1 : Int) ≤ 4 ∧ 1 ≤ ([16777217, 16777219] : List Int).length ∧
    List.Chain' (· ≤ ·) ([16777217, 16777219] : List Int) ∧
    build_part 4 [16777217, 16777219] = some ([16777216, 16777220], [0]) ∧
    rowNumParts 4 [16777217, 16777219] 0 = 1 ∧
    ∃ partTable partToRow,
      build_part 4 [16777217, 16777219] = some (partTable, partToRow) ∧
      0 < partToRow.length ∧
      partTable.getD 0 0 ≠ indptr_acc [16777217, 16777219] 0 + ((0 : Nat) : Int) * 4 :=
  ⟨by decide, by decide, by simp, by decide, by decide, [16777216, 16777220], [0],
    by decide, by decide, by decide⟩

/-- C2 as amended: on valid input with offsets of magnitude at most 2^24 and
at most 2^24 offsets the call returns, the first `numParts` entries of the
part table and the whole part-to-row map are the row-major flattening over
`i = 0 .. N-1` of the entries `indptr[i] + pid * partSize` (resp. `i`) for
`pid = 0 .. ceil(deg(i) / partSize) - 1`, rows of degree 0 contributing
nothing; and `indptr = [0, 5, 5, 12]`, `partSize = 4` gives
`partTable = [0, 4, 5, 9, 12]`, `partToRow = [0, 0, 2, 2]`. -/
theorem parts_row_major (partSize : Int) (indptr : List Int)
    (hps : 1 ≤ partSize) (hlen : 1 ≤ indptr.length)
    (hmono : List.Chain' (· ≤ ·) indptr)
    (hoff : ∀ x ∈ indptr, -16777216 ≤ x ∧ x ≤ 16777216)
    (hrows : indptr.length ≤ 16777216) :
    (∃ partTable partToRow, build_part partSize indptr = some (partTable, partToRow) ∧
      partTable.take partToRow.length = (List.range (indptr.length - 1)).flatMap (fun i =>
        (List.range ⌈((indptr_acc indptr (i + 1) - indptr_acc indptr i : Int) : ℚ)
            / (partSize : ℚ)⌉.toNat).map
          (fun (pid : Nat) => indptr_acc indptr i + (pid : Int) * partSize)) ∧
      partToRow = (List.range (indptr.length - 1)).flatMap (fun i =>
        (List.range ⌈((indptr_acc indptr (i + 1) - indptr_acc indptr i : Int) : ℚ)
            / (partSize : ℚ)⌉.toNat).map
          (fun (_ : Nat) => (i : Int)))) ∧
    build_part 4 [0, 5, 5, 12] = some ([0, 4, 5, 9, 12], [0, 0, 2, 2]) := by
  refine ⟨⟨_, _, build_part_tables partSize indptr hps hmono hoff hrows, ?_, ?_⟩, by decide⟩
  · rw [owners_length, List.take_left']
    · exact startsUpTo_eq_ceil partSize indptr hps hmono _ (by omega)
    · rfl
  · exact ownersUpTo_eq_ceil partSize indptr hps hmono _ (by omega)

theorem parts_row_major_witness :
    (1 : Int) ≤ 4 ∧ 1 ≤ ([0, 5, 5, 12] : List Int).length ∧
    List.Chain' (· ≤ ·) ([0, 5, 5, 12] : List Int) ∧
    (∀ x ∈ ([0, 5, 5, 12] : List Int), -16777216 ≤ x ∧ x ≤ 16777216) ∧
    ([0, 5, 5, 12] : List Int).length ≤ 16777216 ∧
    (∃ partTable partToRow, build_part 4 [0, 5, 5, 12] = some (partTable, partToRow) ∧
      partTable.take partToRow.length
        = (List.range (([0, 5, 5, 12] : List Int).length - 1)).flatMap (fun i =>
          (List.range ⌈((indptr_acc [0, 5, 5, 12] (i + 1)
              - indptr_acc [0, 5, 5, 12] i : Int) : ℚ) / ((4 : Int) : ℚ)⌉.toNat).map
            (fun (pid : Nat) => indptr_acc [0, 5, 5, 12] i + (pid : Int) * 4)) ∧
      partToRow = (List.range (([0, 5, 5, 12] : List Int).length - 1)).flatMap (fun i =>
        (List.range ⌈((indptr_acc [0, 5, 5, 12] (i + 1)
            - indptr_acc [0, 5, 5, 12] i : Int) : ℚ) / ((4 : Int) : ℚ)⌉.toNat).map
          (fun (_ : Nat) => (i : Int)))) ∧
    build_part 4 [0, 5, 5, 12] = some ([0, 4, 5, 9, 12], [0, 0, 2, 2]) :=
  ⟨by decide, by decide, by simp, by decide, by decide,
    parts_row_major 4 [0, 5, 5, 12] (by decide) (by decide) (by simp) (by decide)
      (by decide)⟩

/-- C3 fails as stated: for the valid input `indptr = [16777219, 16777220]`,
`partSize = 4` the start 16777219 of the only part is stored as the float32
16777220, the call returns the part table `[16777220, 16777220]`, and the size
`min (16777220 + 4) indptr[1] - 16777220` of part 0 is 0. -/
theorem part_size_bounds_counterexample :
    (1 : Int) ≤ 4 ∧ List.Chain' (· ≤ ·) ([16777219, 16777220] : List Int) ∧
    build_part 4 [16777219, 16777220] = some ([16777220, 16777220], [0]) ∧
    ∃ partTable partToRow,
      build_part 4 [16777219, 16777220] = some (partTable, partToRow) ∧
      ∃ k, k < partToRow.length ∧
        ¬ (0 < partEnd 4 [16777219, 16777220] partTable partToRow k
              - partStart partTable k) :=
  ⟨by decide, by simp, by decide, [16777220, 16777220], [0], by decide, 0,
    by decide, by decide⟩

/-- C3 as amended: on valid input with offsets of magnitude at most 2^24 and
at most 2^24 offsets the call returns and every part `k < numParts` has a
size `end_k - start_k` with `0 < size ≤ partSize`; no row of degree 0 occurs
in the part-to-row map. -/
theorem part_size_bounds (partSize : Int) (indptr : List Int)
    (hps : 1 ≤ partSize) (hmono : List.Chain' (· ≤ ·) indptr)
    (hoff : ∀ x ∈ indptr, -16777216 ≤ x ∧ x ≤ 16777216)
    (hrows : indptr.length ≤ 16777216) :
    ∃ partTable partToRow, build_part partSize indptr = some (partTable, partToRow) ∧
      (∀ k, k < partToRow.length →
        0 < partEnd partSize indptr partTable partToRow k - partStart partTable k ∧
        partEnd partSize indptr partTable partToRow k - partStart partTable k ≤ partSize) ∧
      (∀ i, i + 1 < indptr.length → indptr_acc indptr (i + 1) - indptr_acc indptr i = 0 →
        (i : Int) ∉ partToRow) := by
  refine ⟨_, _, build_part_tables partSize indptr hps hmono hoff hrows, ?_, ?_⟩
  · intro k hk
    obtain ⟨q, hq, _, hs, _, he⟩ :=
      part_at partSize indptr (finalSlot partSize indptr) (indptr.length - 1) k hk
    have hm := mem_partsUpTo partSize indptr _ q hq
    have hb := partBegOf_lt partSize indptr hps hmono q.1 (by omega) q.2 hm.2
    rw [hs, he]
    unfold exactEndOf
    split_ifs with hc <;> constructor <;> omega
  · intro i _ hd hmem
    obtain ⟨j, _, hj, hpos⟩ := mem_ownersUpTo partSize indptr _ _ hmem
    have hij : i = j := by exact_mod_cast hj
    subst hij
    have := rowNumParts_eq_zero partSize indptr i (by omega)
    omega

theorem part_size_bounds_witness :
    (1 : Int) ≤ 4 ∧ List.Chain' (· ≤ ·) ([0, 5, 5, 12] : List Int) ∧
    (∀ x ∈ ([0, 5, 5, 12] : List Int), -16777216 ≤ x ∧ x ≤ 16777216) ∧
    ([0, 5, 5, 12] : List Int).length ≤ 16777216 ∧
    ∃ partTable partToRow, build_part 4 [0, 5, 5, 12] = some (partTable, partToRow) ∧
      (∀ k, k < partToRow.length →
        0 < partEnd 4 [0, 5, 5, 12] partTable partToRow k - partStart partTable k ∧
        partEnd 4 [0, 5, 5, 12] partTable partToRow k - partStart partTable k ≤ 4) ∧
      (∀ i, i + 1 < ([0, 5, 5, 12] : List Int).length →
        indptr_acc [0, 5, 5, 12] (i + 1) - indptr_acc [0, 5, 5, 12] i = 0 →
        (i : Int) ∉ partToRow) :=
  ⟨by decide, by simp, by decide, by decide,
    part_size_bounds 4 [0, 5, 5, 12] (by decide) (by simp) (by decide) (by decide)⟩

/-- C4 fails as stated: for the valid input `indptr = [16777219, 16777220]`,
`partSize = 4` the call returns the part table `[16777220, 16777220]` and the
part-to-row map `[0]`; the only part has size 0, so the sizes add up to 0
while `indptr[N] - indptr[0] = 1`. -/
theorem part_sizes_sum_counterexample :
    (1 : Int) ≤ 4 ∧ List.Chain' (· ≤ ·) ([16777219, 16777220] : List Int) ∧
    ∃ partTable partToRow,
      build_part 4 [16777219, 16777220] = some (partTable, partToRow) ∧
      ∑ k in Finset.range partToRow.length,
          (partEnd 4 [16777219, 16777220] partTable partToRow k - partStart partTable k)
        = 0 ∧
      indptr_acc [16777219, 16777220] (([16777219, 16777220] : List Int).length - 1)
        - indptr_acc [16777219, 16777220] 0 = 1 :=
  ⟨by decide, by simp, [16777220, 16777220], [0], by decide, by decide, by decide⟩

/-- C4 as amended: on valid input with offsets of magnitude at most 2^24 and
at most 2^24 offsets the call returns and the sizes `end_k - start_k` of all
parts `k < numParts` add up to `indptr[N] - indptr[0]`. -/
theorem part_sizes_sum (partSize : Int) (indptr : List Int)
    (hps : 1 ≤ partSize) (hmono : List.Chain' (· ≤ ·) indptr)
    (hoff : ∀ x ∈ indptr, -16777216 ≤ x ∧ x ≤ 16777216)
    (hrows : indptr.length ≤ 16777216) :
    ∃ partTable partToRow, build_part partSize indptr = some (partTable, partToRow) ∧
      ∑ k in Finset.range partToRow.length,
          (partEnd partSize indptr partTable partToRow k - partStart partTable k)
        = indptr_acc indptr (indptr.length - 1) - indptr_acc indptr 0 := by
  obtain ⟨pt, p2n, hb, h0, hadj, hlast, hnone⟩ := build_part_tiles partSize indptr hps hmono hoff hrows
  refine ⟨pt, p2n, hb, ?_⟩
  have tele : ∀ j, j + 1 ≤ p2n.length →
      ∑ k in Finset.range (j + 1), (partEnd partSize indptr pt p2n k - partStart pt k)
        = partEnd partSize indptr pt p2n j - partStart pt 0 := by
    intro j
    induction j with
    | zero => intro _; simp
    | succ j ih =>
      intro hj
      rw [Finset.sum_range_succ, ih (by omega), hadj j (by omega)]
      ring
  rcases Nat.eq_zero_or_pos p2n.length with hz | hpos
  · rw [hz, Finset.sum_range_zero, hnone hz]; ring
  · obtain ⟨m, hm⟩ : ∃ m, p2n.length = m + 1 := ⟨p2n.length - 1, by omega⟩
    have hl := hlast hpos
    rw [hm] at hl ⊢
    rw [tele m (by omega), h0 hpos]
    simpa using congrArg (· - indptr_acc indptr 0) hl

theorem part_sizes_sum_witness :
    (1 : Int) ≤ 4 ∧ List.Chain' (· ≤ ·) ([0, 5, 5, 12] : List Int) ∧
    (∀ x ∈ ([0, 5, 5, 12] : List Int), -16777216 ≤ x ∧ x ≤ 16777216) ∧
    ([0, 5, 5, 12] : List Int).length ≤ 16777216 ∧
    ∃ partTable partToRow, build_part 4 [0, 5, 5, 12] = some (partTable, partToRow) ∧
      ∑ k in Finset.range partToRow.length,
          (partEnd 4 [0, 5, 5, 12] partTable partToRow k - partStart partTable k)
        = indptr_acc [0, 5, 5, 12] (([0, 5, 5, 12] : List Int).length - 1)
          - indptr_acc [0, 5, 5, 12] 0 :=
  ⟨by decide, by simp, by decide, by decide,
    part_sizes_sum 4 [0, 5, 5, 12] (by decide) (by simp) (by decide) (by decide)⟩

/-- C6 (the code departs from the claim): for `indptr = [0, 5, 5]`,
`partSize = 4`, a valid input whose last row has degree 0, the call returns the
part table `[0, 4, 0]`; its final entry is the initial 0 and not
`indptr[N] = 5`, because the sentinel store is only reached from a part of the
last row. -/
theorem final_entry_not_last_offset :
    (1 : Int) ≤ 4 ∧ List.Chain' (· ≤ ·) ([0, 5, 5] : List Int) ∧
    build_part 4 [0, 5, 5] = some ([0, 4, 0], [0, 0]) ∧
    ([0, 4, 0] : List Int).getLast? = some 0 ∧
    indptr_acc [0, 5, 5] (([0, 5, 5] : List Int).length - 1) = 5 ∧
    ∃ partTable partToRow, build_part 4 [0, 5, 5] = some (partTable, partToRow) ∧
      partTable.getLast? ≠ some (indptr_acc [0, 5, 5] (([0, 5, 5] : List Int).length - 1)) :=
  ⟨by decide, by simp, by decide, by decide, by decide,
    [0, 4, 0], [0, 0], by decide, by decide⟩

/-- C9 fails as stated: for `indptr = [0, 16777217]`, `partSize = 16777217`
(one row, degree equal to `partSize`) the sentinel 16777217 is stored as the
float32 16777216 and the call returns the part table `[0, 16777216]`; for
`indptr = [1, 5]`, `partSize = 2147483647` the 32-bit sum `partBeg + partSize`
of line 101 overflows to `-2147483648`, the sentinel condition fails, and the
call returns the part table `[1, 0]`. -/
theorem single_row_single_part_counterexample :
    ((0 : Int) < 16777217 - 0 ∧ (16777217 : Int) - 0 ≤ 16777217 ∧
      build_part 16777217 [0, 16777217] = some ([0, 16777216], [0]) ∧
      build_part 16777217 [0, 16777217] ≠ some ([0, 16777217], [0])) ∧
    ((0 : Int) < 5 - 1 ∧ (5 : Int) - 1 ≤ 2147483647 ∧
      build_part 2147483647 [1, 5] = some ([1, 0], [0]) ∧
      build_part 2147483647 [1, 5] ≠ some ([1, 5], [0])) :=
  ⟨⟨by decide, by decide, by decide, by decide⟩,
    ⟨by decide, by decide, by decide, by decide⟩⟩

/-- C9 as amended: for a single row `indptr = [a, b]` with
`0 < b - a ≤ partSize`, offsets of magnitude at most 2^24 and
`a + partSize` inside the `int` range, the call returns `partTable = [a, b]`
and `partToRow = [0]`: one part, also when the degree equals `partSize`, and
the sentinel is written.  In particular `([0, 4], 4)` gives `([0, 4], [0])`
and `([0, 3], 4)` gives `([0, 3], [0])`. -/
theorem single_row_single_part (a b partSize : Int)
    (hpos : 0 < b - a) (hle : b - a ≤ partSize)
    (hfit : -16777216 ≤ a ∧ b ≤ 16777216) (hsum : a + partSize < 2147483648) :
    build_part partSize [a, b] = some ([a, b], [0]) ∧
    build_part 4 [0, 4] = some ([0, 4], [0]) ∧
    build_part 4 [0, 3] = some ([0, 3], [0]) := by
  refine ⟨?_, by decide, by decide⟩
  have hps : 1 ≤ partSize := by omega
  have hchain : List.Chain' (· ≤ ·) [a, b] := by simp; omega
  have hb := thisNumParts_bounds (b - a) partSize hpos.le hps
  have hp := thisNumParts_pos (b - a) partSize hpos hps
  have hone : thisNumParts (b - a) partSize = 1 := by
    by_contra hne
    have : 2 ≤ thisNumParts (b - a) partSize := by omega
    nlinarith
  have hrow : rowNumParts partSize [a, b] 0 = 1 := by
    simp [rowNumParts, indptr_acc, hone]
  have hparts : partsUpTo partSize [a, b] 1 = [(0, 0)] := by
    rw [partsUpTo_succ, hrow]
    rfl
  have hbeg : partBegOf partSize [a, b] 0 0 = a := by
    simp [partBegOf, indptr_acc]
  have hend : partEndOf partSize [a, b] 0 0 = b := by
    unfold partEndOf
    rw [hbeg, wrap32_exact _ ⟨by omega, by omega⟩]
    simp only [indptr_acc, List.getD_cons_succ, List.getD_cons_zero]
    rw [if_neg (by omega)]
  have hfin : finalSlot partSize [a, b] = b := by
    rw [finalSlot_eq_sentinelVal partSize [a, b] (by simp) (by simp [hrow])]
    simp only [List.length_cons, List.length_nil, hrow]
    unfold sentinelVal
    rw [hend, if_pos ⟨by simp, by simp [indptr_acc]⟩]
    exact toFloat32_exact b ⟨by omega, by omega⟩
  rw [build_part_general partSize [a, b] hps hchain, hfin]
  simp only [List.length_cons, List.length_nil, Nat.add_one_sub_one, hparts, List.map_cons,
    List.map_nil, hbeg]
  rw [toFloat32_exact a ⟨by omega, by omega⟩]
  rfl

theorem single_row_single_part_witness :
    (0 : Int) < 4 - 0 ∧ (4 : Int) - 0 ≤ 4 ∧
    ((-16777216 : Int) ≤ 0 ∧ (4 : Int) ≤ 16777216) ∧ (0 : Int) + 4 < 2147483648 ∧
    build_part 4 [0, 4] = some ([0, 4], [0]) :=
  ⟨by decide, by decide, by decide, by decide,
    (single_row_single_part 0 4 4 (by decide) (by decide) (by decide) (by decide)).1⟩

/-- C10: `build_part` reports no fault on offsets that are not non-decreasing:
for `indptr = [0, 5, 3]`, `partSize = 4` the call returns the part table
`[0, 4, 5, 3]` and the part-to-row map `[0, 0, 1]`, and part 2 has the size
`min (5 + 4) indptr[2] - 5 = -2`, which is not positive. -/
theorem malformed_offsets_no_fault :
    (1 : Int) ≤ 4 ∧ ¬ List.Chain' (· ≤ ·) ([0, 5, 3] : List Int) ∧
    ∃ partTable partToRow, build_part 4 [0, 5, 3] = some (partTable, partToRow) ∧
      ∃ k, k < partToRow.length ∧
        partEnd 4 [0, 5, 3] partTable partToRow k - partStart partTable k ≤ 0 :=
  ⟨by decide, by simp, [0, 4, 5, 3], [0, 0, 1], by decide, 2, by decide, by decide⟩

/-! ## Behaviour of the two passes -/

/-- C11: for `degree ≥ 0` and `partSize ≥ 1` the per-row part count of both
passes (`degree / partSize` when `degree % partSize == 0`, else
`degree / partSize + 1`, truncating division) is `ceil(degree / partSize)`,
equals `(degree + partSize - 1) / partSize`, is 0 exactly when `degree = 0`,
and is the least `n` with `n * partSize ≥ degree`. -/
theorem part_count_is_ceiling (degree partSize : Int)
    (hd : 0 ≤ degree) (hps : 1 ≤ partSize) :
    thisNumParts degree partSize = ⌈(degree : ℚ) / (partSize : ℚ)⌉ ∧
    thisNumParts degree partSize = (degree + partSize - 1).tdiv partSize ∧
    thisNumParts degree partSize = (degree + partSize - 1) / partSize ∧
    (thisNumParts degree partSize = 0 ↔ degree = 0) ∧
    degree ≤ thisNumParts degree partSize * partSize ∧
    ∀ n : Int, degree ≤ n * partSize → thisNumParts degree partSize ≤ n := by
  have hb := thisNumParts_bounds degree partSize hd hps
  have hn := thisNumParts_nonneg degree partSize hd hps
  have hpos : (0 : Int) < partSize := by omega
  have hdiv : thisNumParts degree partSize = (degree + partSize - 1) / partSize := by
    apply Int.le_antisymm
    · rw [Int.le_ediv_iff_mul_le hpos]; omega
    · have : (degree + partSize - 1) / partSize < thisNumParts degree partSize + 1 := by
        rw [Int.ediv_lt_iff_lt_mul hpos]; nlinarith
      omega
  refine ⟨thisNumParts_eq_ceil degree partSize hd hps, ?_, hdiv, ?_, hb.1, ?_⟩
  · rw [Int.tdiv_eq_ediv (by omega) (by omega)]; exact hdiv
  · constructor
    · intro h0
      rw [h0] at hb
      omega
    · intro h0
      rw [h0]; exact thisNumParts_zero partSize
  · intro n hle
    by_contra hc
    have : n + 1 ≤ thisNumParts degree partSize := by omega
    nlinarith

theorem part_count_is_ceiling_witness :
    (0 : Int) ≤ 7 ∧ (1 : Int) ≤ 4 ∧
    thisNumParts 7 4 = ⌈((7 : Int) : ℚ) / ((4 : Int) : ℚ)⌉ ∧
    thisNumParts 7 4 = ((7 : Int) + 4 - 1).tdiv 4 ∧
    thisNumParts 7 4 = ((7 : Int) + 4 - 1) / 4 ∧
    (thisNumParts 7 4 = 0 ↔ (7 : Int) = 0) ∧
    (7 : Int) ≤ thisNumParts 7 4 * 4 ∧
    ∀ n : Int, (7 : Int) ≤ n * 4 → thisNumParts 7 4 ≤ n :=
  ⟨by decide, by decide, part_count_is_ceiling 7 4 (by decide) (by decide)⟩

/-- C12 fails as stated: for the valid input `indptr = [1, 5]`,
`partSize = 2147483647` the only row has one part, `pid = 0 = thisNumParts - 1`,
but the 32-bit sum `partBeg + partSize` of line 101 is `-2147483648`, so the
computed `partEnd` is `-2147483648` and not `indptr[1] = 5`; the last row has
positive degree and yet no iteration meets the sentinel condition. -/
theorem sentinel_fires_once_counterexample :
    (1 : Int) ≤ 2147483647 ∧ List.Chain' (· ≤ ·) ([1, 5] : List Int) ∧
    thisNumParts (indptr_acc [1, 5] 1 - indptr_acc [1, 5] 0) 2147483647 = 1 ∧
    partEndOf 2147483647 [1, 5] 0 0 = -2147483648 ∧
    partEndOf 2147483647 [1, 5] 0 0 ≠ indptr_acc [1, 5] (0 + 1) ∧
    indptr_acc [1, 5] 0 < indptr_acc [1, 5] 1 ∧
    (∀ q : Nat × Nat, q.1 + 1 < ([1, 5] : List Int).length →
      q.2 < rowNumParts 2147483647 [1, 5] q.1 →
      ¬ sentinelCond 2147483647 [1, 5] ((([1, 5] : List Int).length : Int) - 1) q.1 q.2) ∧
    build_part 2147483647 [1, 5] = some ([1, 0], [0]) := by
  refine ⟨by decide, by simp, by decide, by decide, by decide, by decide, ?_, by decide⟩
  rintro ⟨i, pid⟩ hi hp hc
  have hi0 : i = 0 := by
    simp only [List.length_cons, List.length_nil] at hi
    omega
  subst hi0
  have hrow : rowNumParts 2147483647 [1, 5] 0 = 1 := by decide
  have hp0 : pid = 0 := by
    simp only [hrow] at hp
    omega
  subst hp0
  have hne : partEndOf 2147483647 [1, 5] 0 0 ≠ indptr_acc [1, 5] (0 + 1) := by decide
  exact hne hc.2

/-- C12 as amended: on valid input on which no sum `partBeg + partSize`
leaves the `int` range (every offset `x` has `-2^31 ≤ x` and
`x + partSize ≤ 2^31`), in a row `i` with `thisNumParts` parts the end offset
`partEnd = min (partBeg + partSize) indptr[i+1]` of part `pid` equals
`indptr[i+1]` if and only if `pid = thisNumParts - 1`.  Hence the sentinel
condition (`i = N - 1` and `partEnd = indptr[N]`) holds in exactly one
iteration `(i, pid)` when the last row has positive degree, the final part of
the last row, and in none when the last row has degree 0. -/
theorem sentinel_fires_once (partSize : Int) (indptr : List Int)
    (hps : 1 ≤ partSize) (hmono : List.Chain' (· ≤ ·) indptr)
    (hovf : ∀ x ∈ indptr, -2147483648 ≤ x ∧ x + partSize ≤ 2147483648) :
    (∀ i pid : Nat, i + 1 < indptr.length →
      (pid : Int) < thisNumParts (indptr_acc indptr (i + 1) - indptr_acc indptr i) partSize →
      partEndOf partSize indptr i pid
        = min (partBegOf partSize indptr i pid + partSize) (indptr_acc indptr (i + 1)) ∧
      (partEndOf partSize indptr i pid = indptr_acc indptr (i + 1) ↔
        (pid : Int)
          = thisNumParts (indptr_acc indptr (i + 1) - indptr_acc indptr i) partSize - 1)) ∧
    (2 ≤ indptr.length →
      indptr_acc indptr (indptr.length - 2) < indptr_acc indptr (indptr.length - 1) →
      (∃! q : Nat × Nat, q.1 + 1 < indptr.length ∧
        q.2 < rowNumParts partSize indptr q.1 ∧
        sentinelCond partSize indptr ((indptr.length : Int) - 1) q.1 q.2) ∧
      0 < rowNumParts partSize indptr (indptr.length - 2) ∧
      sentinelCond partSize indptr ((indptr.length : Int) - 1) (indptr.length - 2)
        (rowNumParts partSize indptr (indptr.length - 2) - 1)) ∧
    ((indptr.length ≤ 1 ∨
        indptr_acc indptr (indptr.length - 1) - indptr_acc indptr (indptr.length - 2) = 0) →
      ∀ i pid : Nat, i + 1 < indptr.length → pid < rowNumParts partSize indptr i →
        ¬ sentinelCond partSize indptr ((indptr.length : Int) - 1) i pid) := by
  refine ⟨?_, ?_, ?_⟩
  · intro i pid hi hp
    have hc := rowNumParts_cast partSize indptr hps hmono i hi
    have hp2 : pid < rowNumParts partSize indptr i := by
      have : (pid : Int) < (rowNumParts partSize indptr i : Int) := by rw [hc]; exact hp
      exact_mod_cast this
    refine ⟨?_, ?_⟩
    · rw [partEndOf_eq_exact partSize indptr hps hmono hovf i hi pid hp2]
      exact exactEndOf_eq_min partSize indptr i pid
    rw [partEndOf_eq_iff partSize indptr hps hmono hovf i hi pid hp2, ← hc]
    omega
  · intro hlen hd
    have hd2 : indptr_acc indptr (indptr.length - 2)
        < indptr_acc indptr (indptr.length - 2 + 1) := by
      have e : indptr.length - 2 + 1 = indptr.length - 1 := by omega
      rw [e]; exact hd
    have hpos := rowNumParts_pos partSize indptr hps (indptr.length - 2) hd2
    have hlastc := (sentinelCond_iff partSize indptr hps hmono hovf (indptr.length - 2)
      (by omega) (rowNumParts partSize indptr (indptr.length - 2) - 1) (by omega)).mpr
      ⟨by omega, by omega⟩
    refine ⟨⟨(indptr.length - 2, rowNumParts partSize indptr (indptr.length - 2) - 1),
      ⟨by simp only []; omega, by simp only []; omega, hlastc⟩, ?_⟩, hpos, hlastc⟩
    rintro ⟨i, pid⟩ ⟨hi, hp, hc⟩
    have := (sentinelCond_iff partSize indptr hps hmono hovf i hi pid hp).mp hc
    have hi2 : i = indptr.length - 2 := by omega
    subst hi2
    have hp2 : pid = rowNumParts partSize indptr (indptr.length - 2) - 1 := by omega
    rw [hp2]
  · intro hz i pid hi hp hc
    have hiff := (sentinelCond_iff partSize indptr hps hmono hovf i hi pid hp).mp hc
    rcases hz with hz | hz
    · omega
    · have hi2 : i = indptr.length - 2 := by omega
      subst hi2
      have e : indptr.length - 2 + 1 = indptr.length - 1 := by omega
      have := rowNumParts_eq_zero partSize indptr (indptr.length - 2) (by rw [e]; omega)
      omega

theorem sentinel_fires_once_witness :
    (1 : Int) ≤ 4 ∧ List.Chain' (· ≤ ·) ([0, 5, 5, 12] : List Int) ∧
    (∀ x ∈ ([0, 5, 5, 12] : List Int), -2147483648 ≤ x ∧ x + 4 ≤ 2147483648) ∧
    (∃! q : Nat × Nat, q.1 + 1 < ([0, 5, 5, 12] : List Int).length ∧
        q.2 < rowNumParts 4 [0, 5, 5, 12] q.1 ∧
        sentinelCond 4 [0, 5, 5, 12] ((([0, 5, 5, 12] : List Int).length : Int) - 1)
          q.1 q.2) :=
  ⟨by decide, by simp, by decide,
    ((sentinel_fires_once 4 [0, 5, 5, 12] (by decide) (by simp) (by decide)).2.1
      (by decide) (by decide)).1⟩

/-- C13 fails as stated: for the valid input `indptr = [16777216, 16777218]`,
`partSize = 1`, whose last row has degree 2, the call returns the part table
`[16777216, 16777216, 16777218]`: entry 1 is not
`min (partTable[0] + 1) indptr[1] = 16777217`, and the table is not strictly
increasing. -/
theorem consecutive_entries_delimit_counterexample :
    (1 : Int) ≤ 1 ∧ List.Chain' (· ≤ ·) ([16777216, 16777218] : List Int) ∧
    (2 ≤ ([16777216, 16777218] : List Int).length ∧
      indptr_acc [16777216, 16777218] (([16777216, 16777218] : List Int).length - 2)
        < indptr_acc [16777216, 16777218]
            (([16777216, 16777218] : List Int).length - 1)) ∧
    ∃ partTable partToRow,
      build_part 1 [16777216, 16777218] = some (partTable, partToRow) ∧
      partTable = [16777216, 16777216, 16777218] ∧
      0 < partToRow.length ∧
      partTable.getD (0 + 1) 0
        ≠ min (partTable.getD 0 0 + 1)
            (indptr_acc [16777216, 16777218] ((partToRow.getD 0 0).toNat + 1)) ∧
      ¬ List.Sorted (· < ·) partTable :=
  ⟨by decide, by simp, by decide, [16777216, 16777216, 16777218], [0, 0],
    by decide, rfl, by decide, by decide, by simp [List.Sorted]⟩

/-- C13 as amended: on valid input whose last row has positive degree, with
offsets of magnitude at most 2^24, at most 2^24 offsets and no sum
`partBeg + partSize` leaving the `int` range, the call returns
and consecutive entries of the part table delimit the parts: for every
`k < numParts`, `partTable[k+1] = min (partTable[k] + partSize)
(indptr[partToRow[k] + 1])`, so part `k` is `[partTable[k], partTable[k+1])`,
and the part table (of length `numParts + 1`) is strictly increasing. -/
theorem consecutive_entries_delimit (partSize : Int) (indptr : List Int)
    (hps : 1 ≤ partSize) (hmono : List.Chain' (· ≤ ·) indptr)
    (hlast : 2 ≤ indptr.length ∧
      indptr_acc indptr (indptr.length - 2) < indptr_acc indptr (indptr.length - 1))
    (hoff : ∀ x ∈ indptr, -16777216 ≤ x ∧ x ≤ 16777216)
    (hrows : indptr.length ≤ 16777216)
    (hovf : ∀ x ∈ indptr, -2147483648 ≤ x ∧ x + partSize ≤ 2147483648) :
    ∃ partTable partToRow, build_part partSize indptr = some (partTable, partToRow) ∧
      partTable.length = partToRow.length + 1 ∧
      (∀ k, k < partToRow.length →
        partTable.getD (k + 1) 0
          = min (partTable.getD k 0 + partSize)
              (indptr_acc indptr ((partToRow.getD k 0).toNat + 1))) ∧
      List.Sorted (· < ·) partTable := by
  have hnext := build_part_next_entry partSize indptr hps hmono hoff hrows hlast.1 hlast.2
  have hlen : (startsUpTo partSize indptr (indptr.length - 1) ++ [lastSlot indptr]).length
      = (ownersUpTo partSize indptr (indptr.length - 1)).length + 1 := by
    simp [owners_length]
  refine ⟨_, _, build_part_eq partSize indptr hps hmono hoff hrows hovf, hlen, ?_, ?_⟩
  · intro k hk
    exact hnext k hk
  · unfold List.Sorted
    rw [← List.chain'_iff_pairwise, List.chain'_iff_get]
    intro k hk
    have hk2 : k < (ownersUpTo partSize indptr (indptr.length - 1)).length := by omega
    have hpos := part_nonempty_at partSize indptr hps hmono (lastSlot indptr)
      (indptr.length - 1) k (by omega) hk2
    rw [← hnext k hk2] at hpos
    unfold partStart at hpos
    rw [List.getD_eq_getElem _ _ (by omega), List.getD_eq_getElem _ _ (by omega)] at hpos
    simpa using hpos

theorem consecutive_entries_delimit_witness :
    (1 : Int) ≤ 4 ∧ List.Chain' (· ≤ ·) ([0, 5, 5, 12] : List Int) ∧
    (2 ≤ ([0, 5, 5, 12] : List Int).length ∧
      indptr_acc [0, 5, 5, 12] (([0, 5, 5, 12] : List Int).length - 2)
        < indptr_acc [0, 5, 5, 12] (([0, 5, 5, 12] : List Int).length - 1)) ∧
    (∀ x ∈ ([0, 5, 5, 12] : List Int), -16777216 ≤ x ∧ x ≤ 16777216) ∧
    ([0, 5, 5, 12] : List Int).length ≤ 16777216 ∧
    (∀ x ∈ ([0, 5, 5, 12] : List Int), -2147483648 ≤ x ∧ x + 4 ≤ 2147483648) ∧
    ∃ partTable partToRow, build_part 4 [0, 5, 5, 12] = some (partTable, partToRow) ∧
      partTable.length = partToRow.length + 1 ∧
      (∀ k, k < partToRow.length →
        partTable.getD (k + 1) 0
          = min (partTable.getD k 0 + 4)
              (indptr_acc [0, 5, 5, 12] ((partToRow.getD k 0).toNat + 1))) ∧
      List.Sorted (· < ·) partTable :=
  ⟨by decide, by simp, by decide, by decide, by decide, by decide,
    consecutive_entries_delimit 4 [0, 5, 5, 12] (by decide) (by simp) (by decide)
      (by decide) (by decide) (by decide)⟩

end GNNAdvisor
